import Mathlib

/-!
Verification development for the `asicamera2` driver core: the per-file
debouncer/uploader (`internal/driver/watcher/fileTask.go`), the file-history
store and dispatch loop (`watcher/fileHistory.go` and its drafts), and the
authenticated HTTP backend client (`internal/driver/backend/*.go`).

Paths and other byte strings manipulated by the Go code are modelled as
`List Char`; Go `time.Time` values are modelled as nanosecond counts (`Nat`)
since the zero time, so `t.IsZero()` becomes `t = 0`.
-/

/-- Nanoseconds per second: Go's `time.Second` as a count of nanoseconds. -/
def nsPerSec : Nat := 1000000000

theorem nsPerSec_pos : 0 < nsPerSec := by decide

/-- Go's `t.Round(time.Second)` for a time `t` after the zero time: round to
the nearest whole second, halfway values rounding up. -/
def roundSec (n : Nat) : Nat := (n + nsPerSec / 2) / nsPerSec * nsPerSec

/-- A path in the history map (Go `string`). -/
abbrev GoPath := List Char

/-- One entry of `FileHistory.history` (`fileTask` without the goroutine
plumbing): the last-uploaded timestamp and whether the entry currently holds
a non-nil `Events` channel. -/
structure HEntry where
  uploaded : Nat
  events : Bool
deriving DecidableEq, Repr

/-- The in-memory history map `map[string]fileTask`, as an association list
with (at most) one entry per path. -/
abbrev Hist := List (GoPath × HEntry)

/-- Go map lookup `f.history[fullName]`. -/
def lookupH : Hist → GoPath → Option HEntry
  | [], _ => none
  | kv :: t, p => if kv.1 = p then some kv.2 else lookupH t p

/-- Go map store `f.history[fullName] = task` (replace or append). -/
def setH : Hist → GoPath → HEntry → Hist
  | [], p, e => [(p, e)]
  | kv :: t, p, e => if kv.1 = p then (p, e) :: t else kv :: setH t p e

/-- Go map delete `delete(f.history, fullName)`. -/
def delH : Hist → GoPath → Hist
  | [], _ => []
  | kv :: t, p => if kv.1 = p then t else kv :: delH t p

/-- Whether the history entry for `p` currently holds a non-nil events
channel. -/
def entryEvents (h : Hist) (p : GoPath) : Bool :=
  ((lookupH h p).map HEntry.events).getD false

/-- `FileHistory.CreateTask` (part_015 lines 1062-1080, called as
`task, newChannel := f.FileHistory.CreateTask(fullName)` by the dispatch
loop): look the task up, creating it with a zero `Uploaded` when absent;
allocate an events channel (and report that a new debouncer must be spawned)
exactly when the entry's channel is nil; store the task back in the map. -/
def createTask (h : Hist) (p : GoPath) : Hist × Bool :=
  let task := (lookupH h p).getD ⟨0, false⟩
  if task.events then (setH h p task, false)
  else (setH h p { task with events := true }, true)

/-- `FileHistory.RemoveTask` (part_015 lines 1092-1102): when the entry
exists, close its events channel (if non-nil) and delete the entry. -/
def removeTask (h : Hist) (p : GoPath) : Hist :=
  match lookupH h p with
  | none => h
  | some _ => delH h p

/-- `FileHistory.CompleteTask` (part_015 lines 1104-1122): close and nil the
original entry's events channel (creating a fresh entry when the path is
unknown), and store the delivered `Uploaded` timestamp when it is non-zero. -/
def completeTask (h : Hist) (p : GoPath) (taskUploaded : Nat) : Hist :=
  let orig : HEntry :=
    match lookupH h p with
    | some e => { e with events := false }
    | none => ⟨0, false⟩
  let orig : HEntry :=
    if taskUploaded ≠ 0 then { orig with uploaded := taskUploaded } else orig
  setH h p orig

/-- Result of one `fileTask.triggered` invocation: the `uploaded` value
delivered to the watcher, the error (if any), and which of the deferred
alert actions ran. -/
structure TrigResult where
  uploaded : Nat
  uploadErr : Option String
  alertSent : Bool
  alertCleared : Bool
deriving DecidableEq, Repr

/-- `fileTask.triggered` (fileTask.go lines 256-302). `statRes` is the
outcome of `os.Stat` (modification time in nanoseconds on success);
`uploadRes` is the outcome of `server.Upload` (`none` = success). On a stat
or upload error the deferred block sends an `upload_file` alert and keeps
`uploaded` unchanged; when the rounded mtime is not after the stored value
the upload is dropped; on success `uploaded` is bumped to the rounded mtime
plus one second and the alert is cleared. -/
def triggeredGo (prevUploaded : Nat) (statRes : Except String Nat)
    (uploadRes : Option String) : TrigResult :=
  match statRes with
  | .error e => ⟨prevUploaded, some e, true, false⟩
  | .ok mtimeNs =>
    let modtime := roundSec mtimeNs
    if ¬ prevUploaded < modtime then
      ⟨prevUploaded, none, false, false⟩
    else
      match uploadRes with
      | some e => ⟨prevUploaded, some e, true, false⟩
      | none => ⟨modtime + nsPerSec, none, false, true⟩

theorem lookupH_setH_self (h : Hist) (p : GoPath) (e : HEntry) :
    lookupH (setH h p e) p = some e := by
  induction h with
  | nil => simp [setH, lookupH]
  | cons hd t ih =>
    by_cases hq : hd.1 = p
    · simp [setH, hq, lookupH]
    · simp [setH, hq, lookupH, ih]

theorem lookupH_setH_ne (h : Hist) (p q : GoPath) (e : HEntry) (hne : p ≠ q) :
    lookupH (setH h p e) q = lookupH h q := by
  induction h with
  | nil => simp [setH, lookupH, hne]
  | cons hd t ih =>
    by_cases hq : hd.1 = p
    · simp [setH, hq, lookupH, hne]
    · simp [setH, hq, lookupH, ih]

theorem roundSec_add_nsPerSec_ne_zero (m : Nat) : roundSec m + nsPerSec ≠ 0 := by
  have h := nsPerSec_pos
  omega

theorem completeTask_eq_setH_of_ne_zero (hist : Hist) (p : GoPath) (u : Nat)
    (hu : u ≠ 0) : completeTask hist p u = setH hist p ⟨u, false⟩ := by
  unfold completeTask
  cases hl : lookupH hist p with
  | none => simp [hu]
  | some e => simp [hu]

theorem lookupH_eq_none_of_not_mem (h : Hist) (p : GoPath)
    (hnm : p ∉ h.map Prod.fst) : lookupH h p = none := by
  induction h with
  | nil => rfl
  | cons hd t ih =>
    simp only [List.map_cons, List.mem_cons, not_or] at hnm
    have h1 : ¬ hd.1 = p := fun hc => hnm.1 hc.symm
    simp only [lookupH, if_neg h1]
    exact ih hnm.2

theorem lookupH_delH_self (h : Hist) (p : GoPath)
    (hnd : (h.map Prod.fst).Nodup) : lookupH (delH h p) p = none := by
  induction h with
  | nil => rfl
  | cons hd t ih =>
    simp only [List.map_cons, List.nodup_cons] at hnd
    by_cases hq : hd.1 = p
    · simp only [delH, if_pos hq]
      exact lookupH_eq_none_of_not_mem t p (hq ▸ hnd.1)
    · simp only [delH, if_neg hq, lookupH, if_neg hq]
      exact ih hnd.2

theorem lookupH_delH_ne (h : Hist) (p q : GoPath) (hne : p ≠ q) :
    lookupH (delH h p) q = lookupH h q := by
  induction h with
  | nil => rfl
  | cons hd t ih =>
    by_cases hq : hd.1 = p
    · have h1 : ¬ hd.1 = q := fun hc => hne (hq.symm.trans hc)
      simp only [delH, if_pos hq, lookupH, if_neg h1]
    · simp only [delH, if_neg hq, lookupH]
      by_cases hq2 : hd.1 = q
      · simp only [if_pos hq2]
      · simp only [if_neg hq2]
        exact ih

theorem setH_mem_cases (h : Hist) (p : GoPath) (e : HEntry)
    (x : GoPath × HEntry) (hx : x ∈ setH h p e) : x ∈ h ∨ x = (p, e) := by
  induction h with
  | nil =>
    simp only [setH, List.mem_singleton] at hx
    exact Or.inr hx
  | cons hd t ih =>
    by_cases hq : hd.1 = p
    · simp only [setH, if_pos hq, List.mem_cons] at hx
      rcases hx with hx | hx
      · exact Or.inr hx
      · exact Or.inl (List.mem_cons_of_mem _ hx)
    · simp only [setH, if_neg hq, List.mem_cons] at hx
      rcases hx with hx | hx
      · exact Or.inl (List.mem_cons.mpr (Or.inl hx))
      · rcases ih hx with hc | hc
        · exact Or.inl (List.mem_cons_of_mem _ hc)
        · exact Or.inr hc

theorem delH_subset (h : Hist) (p : GoPath) (x : GoPath × HEntry)
    (hx : x ∈ delH h p) : x ∈ h := by
  induction h with
  | nil => exact absurd hx (by simp [delH])
  | cons hd t ih =>
    by_cases hq : hd.1 = p
    · simp only [delH, if_pos hq] at hx
      exact List.mem_cons_of_mem _ hx
    · simp only [delH, if_neg hq, List.mem_cons] at hx
      rcases hx with hx | hx
      · exact List.mem_cons.mpr (Or.inl hx)
      · exact List.mem_cons_of_mem _ (ih hx)

theorem keysNodup_setH (h : Hist) (p : GoPath) (e : HEntry)
    (hnd : (h.map Prod.fst).Nodup) : ((setH h p e).map Prod.fst).Nodup := by
  induction h with
  | nil => simp [setH]
  | cons hd t ih =>
    simp only [List.map_cons, List.nodup_cons] at hnd
    by_cases hq : hd.1 = p
    · simp only [setH, if_pos hq, List.map_cons, List.nodup_cons]
      exact ⟨hq ▸ hnd.1, hnd.2⟩
    · simp only [setH, if_neg hq, List.map_cons, List.nodup_cons]
      constructor
      · intro hmem
        rcases List.mem_map.mp hmem with ⟨x, hx, hx2⟩
        rcases setH_mem_cases t p e x hx with hcase | hcase
        · exact hnd.1 (List.mem_map.mpr ⟨x, hcase, hx2⟩)
        · rw [hcase] at hx2
          exact hq hx2.symm
      · exact ih hnd.2

theorem keysNodup_delH (h : Hist) (p : GoPath)
    (hnd : (h.map Prod.fst).Nodup) : ((delH h p).map Prod.fst).Nodup := by
  induction h with
  | nil => simp [delH]
  | cons hd t ih =>
    simp only [List.map_cons, List.nodup_cons] at hnd
    by_cases hq : hd.1 = p
    · simp only [delH, if_pos hq]
      exact hnd.2
    · simp only [delH, if_neg hq, List.map_cons, List.nodup_cons]
      refine ⟨fun hmem => ?_, ih hnd.2⟩
      rcases List.mem_map.mp hmem with ⟨x, hx, hx2⟩
      exact hnd.1 (List.mem_map.mpr ⟨x, delH_subset t p x hx, hx2⟩)

/-- C1: for every path and every debouncer invocation whose triggered upload
succeeds with stat-read modification time `m`, the delivered result carries
`uploaded = roundSec m + nsPerSec` (one second past the rounded mtime), and
`CompleteTask` stores exactly that value as the history entry's uploaded
timestamp for the path. -/
theorem c1_upload_success_bumps_history (hist : Hist) (p : GoPath)
    (prev m : Nat) (hmod : prev < roundSec m) :
    (triggeredGo prev (.ok m) none).uploaded = roundSec m + nsPerSec
    ∧ (triggeredGo prev (.ok m) none).uploadErr = none
    ∧ lookupH (completeTask hist p ((triggeredGo prev (.ok m) none).uploaded)) p
        = some ⟨roundSec m + nsPerSec, false⟩ := by
  have htri : triggeredGo prev (.ok m) none
      = ⟨roundSec m + nsPerSec, none, false, true⟩ := by
    simp only [triggeredGo, if_neg (not_not_intro hmod)]
  refine ⟨by rw [htri], by rw [htri], ?_⟩
  rw [htri]
  rw [completeTask_eq_setH_of_ne_zero hist p _ (roundSec_add_nsPerSec_ne_zero m)]
  exact lookupH_setH_self hist p _

theorem c1_upload_success_bumps_history_witness :
    ((0 : Nat) < roundSec nsPerSec)
    ∧ ((triggeredGo 0 (.ok nsPerSec) none).uploaded = roundSec nsPerSec + nsPerSec
       ∧ (triggeredGo 0 (.ok nsPerSec) none).uploadErr = none
       ∧ lookupH (completeTask [] ['a'] ((triggeredGo 0 (.ok nsPerSec) none).uploaded)) ['a']
           = some ⟨roundSec nsPerSec + nsPerSec, false⟩) :=
  ⟨by decide, c1_upload_success_bumps_history [] ['a'] 0 nsPerSec (by decide)⟩

/-- `filepath.Base`: the final element of the path (either separator). -/
def baseName (p : GoPath) : GoPath :=
  (p.reverse.takeWhile (fun c => c ≠ '/' ∧ c ≠ '\\')).reverse

/-- `Server.Media` (media.go lines 60-66): derive the media type from the
MIME type by the string prefixes `video` and `image`; an empty result means
the type is unknown. -/
def mediaTypeOf (mimeType : GoPath) : GoPath :=
  let mt0 : GoPath :=
    if List.isPrefixOf "video".toList mimeType then "video".toList else []
  let mt1 : GoPath :=
    if List.isPrefixOf "image".toList mimeType then "picture".toList else mt0
  mt1

/-- Trace of one `Server.Media` call: the HTTP request URLs issued, in
order, and the final error. -/
structure MediaTrace where
  requests : List GoPath
  err : Option String
deriving DecidableEq, Repr

/-- `Server.Media` (media.go lines 58-95): classify the MIME type, failing
with `UnknownMediaTypeError` before any HTTP request when unknown; otherwise
POST the JSON metadata to `/api/<mediaType>` and, when that succeeds, POST
the multipart body to `/api/<mediaType>/<id>`. `metaOk` and `fileOk` are the
outcomes of the two `sendResource` calls. -/
def mediaSend (cameraID mimeType path : GoPath) (metaOk fileOk : Bool) :
    MediaTrace :=
  let mid := cameraID ++ '_' :: baseName path
  let mediaType := mediaTypeOf mimeType
  if mediaType = [] then ⟨[], some "unknown media type"⟩
  else
    let metaURL := "/api/".toList ++ mediaType
    let fileURL := "/api/".toList ++ mediaType ++ '/' :: mid
    if metaOk then
      if fileOk then ⟨[metaURL, fileURL], none⟩
      else ⟨[metaURL, fileURL], some "failed to send media contents"⟩
    else ⟨[metaURL], some "failed to send media metadata"⟩

theorem mediaTypeOf_cases (mimeType : GoPath) :
    mediaTypeOf mimeType =
      (if List.isPrefixOf "image".toList mimeType = true then "picture".toList
       else if List.isPrefixOf "video".toList mimeType = true then "video".toList
       else []) := by
  unfold mediaTypeOf
  cases hi : List.isPrefixOf "image".toList mimeType <;>
    cases hv : List.isPrefixOf "video".toList mimeType <;> simp

theorem not_image_of_video (mimeType : GoPath)
    (hv : List.isPrefixOf "video".toList mimeType = true) :
    List.isPrefixOf "image".toList mimeType = false := by
  by_contra hcon
  have hi : List.isPrefixOf "image".toList mimeType = true := by
    revert hcon
    cases List.isPrefixOf "image".toList mimeType <;> simp
  have hv2 : "video".toList <+: mimeType := by
    rw [← List.isPrefixOf_iff_prefix]
    exact hv
  have hi2 : "image".toList <+: mimeType := by
    rw [← List.isPrefixOf_iff_prefix]
    exact hi
  have hle : ("video".toList).length ≤ ("image".toList).length := by decide
  have hpp : "video".toList <+: "image".toList :=
    List.prefix_of_prefix_length_le hv2 hi2 hle
  have heq : "video".toList = "image".toList :=
    List.IsPrefix.eq_of_length hpp (by decide)
  exact absurd heq (by decide)

/-- C6 counterexample: the MIME type `videotape` does not have prefix
`video/`, yet `Media` classifies it as video and issues HTTP requests
instead of failing with the unknown-media-type error; moreover, when an
upload does fail with the unknown-media-type error, the watcher's
`triggered` sends an `upload_file` alert. -/
theorem c6_counterexample :
    List.isPrefixOf "video/".toList "videotape".toList = false
    ∧ mediaTypeOf "videotape".toList = "video".toList
    ∧ (mediaSend "cam".toList "videotape".toList "f.avi".toList true true).err = none
    ∧ (mediaSend "cam".toList "videotape".toList "f.avi".toList true true).requests ≠ []
    ∧ (triggeredGo 0 (.ok nsPerSec) (some "unknown media type")).alertSent = true := by
  refine ⟨by decide, by decide, by decide, by decide, ?_⟩
  have h1 : (0 : Nat) < roundSec nsPerSec := by decide
  have hred : triggeredGo 0 (.ok nsPerSec) (some "unknown media type")
      = ⟨0, some "unknown media type", true, false⟩ := by
    simp only [triggeredGo, if_neg (not_not_intro h1)]
  rw [hred]

/-- C6 (amended): `Media` classifies the file as video exactly when the MIME
type has string prefix `video` and as picture exactly when it has string
prefix `image` (no slash is required by the code); any other MIME type fails
with the permanent unknown-media-type error before issuing any HTTP request;
the watcher's `triggered` then sends an `upload_file` alert for this error
just as for any other upload failure. -/
theorem c6_media_classification (cameraID mimeType path : GoPath)
    (metaOk fileOk : Bool) :
    (mediaTypeOf mimeType = "video".toList
       ↔ List.isPrefixOf "video".toList mimeType = true)
    ∧ (mediaTypeOf mimeType = "picture".toList
       ↔ List.isPrefixOf "image".toList mimeType = true)
    ∧ (mediaTypeOf mimeType = [] →
        mediaSend cameraID mimeType path metaOk fileOk
          = ⟨[], some "unknown media type"⟩)
    ∧ (∀ prev m e, prev < roundSec m →
        (triggeredGo prev (.ok m) (some e)).alertSent = true
        ∧ (triggeredGo prev (.ok m) (some e)).uploaded = prev) := by
  refine ⟨?_, ?_, ?_, ?_⟩
  · rw [mediaTypeOf_cases]
    cases hi : List.isPrefixOf "image".toList mimeType with
    | true =>
      cases hv : List.isPrefixOf "video".toList mimeType with
      | true =>
        have h0 := not_image_of_video mimeType hv
        rw [hi] at h0
        exact absurd h0 (by decide)
      | false => decide
    | false =>
      cases hv : List.isPrefixOf "video".toList mimeType with
      | true => decide
      | false => decide
  · rw [mediaTypeOf_cases]
    cases hi : List.isPrefixOf "image".toList mimeType with
    | true =>
      cases hv : List.isPrefixOf "video".toList mimeType with
      | true =>
        have h0 := not_image_of_video mimeType hv
        rw [hi] at h0
        exact absurd h0 (by decide)
      | false => decide
    | false =>
      cases hv : List.isPrefixOf "video".toList mimeType with
      | true => decide
      | false => decide
  · intro hempty
    simp [mediaSend, hempty]
  · intro prev m e hlt
    have hred : triggeredGo prev (.ok m) (some e) = ⟨prev, some e, true, false⟩ := by
      simp only [triggeredGo, if_neg (not_not_intro hlt)]
    rw [hred]
    exact ⟨rfl, rfl⟩

theorem c6_media_classification_witness :
    mediaTypeOf "text/plain".toList = []
    ∧ mediaSend "cam".toList "text/plain".toList "f.txt".toList true true
        = ⟨[], some "unknown media type"⟩ :=
  ⟨by decide,
   (c6_media_classification "cam".toList "text/plain".toList "f.txt".toList
      true true).2.2.1 (by decide)⟩

/-- The token reply `auth.Do` receives from the attender: the bearer token
and the `Cached` flag (set when the token is served from the cache). -/
structure AuthTok where
  token : String
  cached : Bool
deriving DecidableEq, Repr

/-- Trace of one `auth.Do` call: the `Authorization` header of each HTTP
request issued, in order, and the final outcome (status code or transport
error). -/
structure DoTrace where
  headers : List String
  result : Except String Nat
deriving Repr

/-- `auth.Do` (auth.go lines 240-263): get a (possibly cached) token, set the
`Authorization: Bearer` header and execute the request; when the response
status is 401 or 403 and the token reply was cached, get a fresh token,
rewrite the header and reissue the request once, returning that second
response as is. `auth1`/`auth2` are the attender's replies for the first and
the fresh query; `resp1`/`resp2` the transport outcomes of the two possible
client calls. -/
def authDo (auth1 : Except String AuthTok) (resp1 : Except String Nat)
    (auth2 : Except String AuthTok) (resp2 : Except String Nat) : DoTrace :=
  match auth1 with
  | .error e => ⟨[], .error e⟩
  | .ok tok1 =>
    let hdr1 := "Bearer " ++ tok1.token
    match resp1 with
    | .error e => ⟨[hdr1], .error e⟩
    | .ok st1 =>
      if (st1 = 401 ∨ st1 = 403) ∧ tok1.cached = true then
        match auth2 with
        | .error e => ⟨[hdr1], .error e⟩
        | .ok tok2 =>
          let hdr2 := "Bearer " ++ tok2.token
          match resp2 with
          | .error e => ⟨[hdr1, hdr2], .error e⟩
          | .ok st2 => ⟨[hdr1, hdr2], .ok st2⟩
      else ⟨[hdr1], .ok st1⟩

/-- C3: `Do` executes the request with the token obtained from the attender;
on a 401/403 response obtained with a cached token it requests a fresh
token, rewrites the `Authorization: Bearer` header and reissues the same
request exactly once (so never more than two requests); a 401/403 obtained
with a non-cached token, or any status on the retried request, is returned
to the caller unchanged; a request whose status is not 401/403 is never
reissued. -/
theorem c3_auth_do_retry_once :
    (∀ a1 r1 a2 r2, (authDo a1 r1 a2 r2).headers.length ≤ 2)
    ∧ (∀ tok1 r1 a2 r2, (authDo (.ok tok1) r1 a2 r2).headers.head?
        = some ("Bearer " ++ tok1.token))
    ∧ (∀ tok1 st1 tok2 r2, ((st1 = 401 ∨ st1 = 403) ∧ tok1.cached = true) →
        authDo (.ok tok1) (.ok st1) (.ok tok2) r2
          = ⟨["Bearer " ++ tok1.token, "Bearer " ++ tok2.token], r2⟩)
    ∧ (∀ tok1 st1 a2 r2, tok1.cached = false →
        authDo (.ok tok1) (.ok st1) a2 r2
          = ⟨["Bearer " ++ tok1.token], .ok st1⟩)
    ∧ (∀ tok1 st1 a2 r2, ¬(st1 = 401 ∨ st1 = 403) →
        authDo (.ok tok1) (.ok st1) a2 r2
          = ⟨["Bearer " ++ tok1.token], .ok st1⟩) := by
  refine ⟨?_, ?_, ?_, ?_, ?_⟩
  · intro a1 r1 a2 r2
    cases a1 with
    | error e => simp [authDo]
    | ok tok1 =>
      cases r1 with
      | error e => simp [authDo]
      | ok st1 =>
        by_cases hc : (st1 = 401 ∨ st1 = 403) ∧ tok1.cached = true
        · cases a2 with
          | error e => simp [authDo, hc]
          | ok tok2 =>
            cases r2 with
            | error e => simp [authDo, hc]
            | ok st2 => simp [authDo, hc]
        · simp [authDo, hc]
  · intro tok1 r1 a2 r2
    cases r1 with
    | error e => simp [authDo]
    | ok st1 =>
      by_cases hc : (st1 = 401 ∨ st1 = 403) ∧ tok1.cached = true
      · cases a2 with
        | error e => simp [authDo, hc]
        | ok tok2 =>
          cases r2 with
          | error e => simp [authDo, hc]
          | ok st2 => simp [authDo, hc]
      · simp [authDo, hc]
  · intro tok1 st1 tok2 r2 hc
    cases r2 with
    | error e => simp [authDo, hc]
    | ok st2 => simp [authDo, hc]
  · intro tok1 st1 a2 r2 hnc
    have hc : ¬ ((st1 = 401 ∨ st1 = 403) ∧ tok1.cached = true) := by
      intro hcon
      rw [hnc] at hcon
      exact absurd hcon.2 (by decide)
    simp [authDo, hc]
  · intro tok1 st1 a2 r2 hns
    have hc : ¬ ((st1 = 401 ∨ st1 = 403) ∧ tok1.cached = true) :=
      fun hcon => hns hcon.1
    simp [authDo, hc]

theorem c3_auth_do_retry_once_witness :
    (((401 : Nat) = 401 ∨ (401 : Nat) = 403) ∧ (AuthTok.mk "t1" true).cached = true)
    ∧ authDo (.ok ⟨"t1", true⟩) (.ok 401) (.ok ⟨"t2", false⟩) (.ok 200)
        = ⟨["Bearer " ++ "t1", "Bearer " ++ "t2"], .ok 200⟩ :=
  ⟨⟨Or.inl rfl, rfl⟩,
   c3_auth_do_retry_once.2.2.1 ⟨"t1", true⟩ 401 ⟨"t2", false⟩ (.ok 200)
     ⟨Or.inl rfl, rfl⟩⟩

/-- The attender's stored/delivered reply (`AuthReply` in auth.go): user id,
token, whether the reply was served from cache, and the error. -/
structure WAuthReply where
  uid : String
  token : String
  cached : Bool
  err : Option String
deriving DecidableEq, Repr

/-- The attender's state before the first query: `lastReply := AuthReply{}`. -/
def wauthInit : WAuthReply := ⟨"", "", false, none⟩

/-- One query served by `auth.WatchAuth` (auth.go lines 174-208). `authRes`
is the outcome of `httpAuth` when it runs (id and token on success). When
the query asks for fresh credentials or no token is stored, authenticate:
on success store and deliver the new reply with `Cached = false`; on failure
clear the stored token before delivering the error reply. Otherwise deliver
the cached reply. After delivering, mark the stored reply as cached.
Returns (reply delivered, next stored state, whether `httpAuth` ran). -/
def watchAuthStep (last : WAuthReply) (fresh : Bool)
    (authRes : Except String (String × String)) :
    WAuthReply × WAuthReply × Bool :=
  if fresh = true ∨ last.token = "" then
    match authRes with
    | .ok pr => (⟨pr.1, pr.2, false, none⟩, ⟨pr.1, pr.2, true, none⟩, true)
    | .error e => (⟨"", "", false, some e⟩, ⟨"", "", true, some e⟩, true)
  else (last, { last with cached := true }, false)

/-- The attender's stored state after serving a list of queries, starting
from `st`. -/
def runWatchAuthFrom (st : WAuthReply)
    (qs : List (Bool × Except String (String × String))) : WAuthReply :=
  qs.foldl (fun s q => (watchAuthStep s q.1 q.2).2.1) st

/-- The attender's stored state after serving a list of queries. -/
def runWatchAuth (qs : List (Bool × Except String (String × String))) :
    WAuthReply :=
  runWatchAuthFrom wauthInit qs

theorem watchAuthStep_next_cases (last : WAuthReply) (fresh : Bool)
    (r : Except String (String × String)) :
    (∃ i t, r = .ok (i, t)
       ∧ (watchAuthStep last fresh r).2.1 = ⟨i, t, true, none⟩)
    ∨ (∃ e, r = .error e
       ∧ (watchAuthStep last fresh r).2.1 = ⟨"", "", true, some e⟩)
    ∨ (watchAuthStep last fresh r).2.1 = { last with cached := true } := by
  unfold watchAuthStep
  by_cases hg : fresh = true ∨ last.token = ""
  · rw [if_pos hg]
    cases r with
    | ok pr => exact Or.inl ⟨pr.1, pr.2, rfl, rfl⟩
    | error e => exact Or.inr (Or.inl ⟨e, rfl, rfl⟩)
  · rw [if_neg hg]
    exact Or.inr (Or.inr rfl)

theorem runWatchAuthFrom_token_src
    (qs : List (Bool × Except String (String × String))) :
    ∀ st : WAuthReply, (runWatchAuthFrom st qs).token ≠ "" →
      (∃ q ∈ qs, ∃ i, q.2 = Except.ok (i, (runWatchAuthFrom st qs).token))
      ∨ st.token = (runWatchAuthFrom st qs).token := by
  induction qs with
  | nil =>
    intro st h
    exact Or.inr rfl
  | cons q qs ih =>
    intro st h
    have hfold : runWatchAuthFrom st (q :: qs)
        = runWatchAuthFrom ((watchAuthStep st q.1 q.2).2.1) qs := rfl
    rw [hfold] at h ⊢
    rcases ih ((watchAuthStep st q.1 q.2).2.1) h with hqs | hstate
    · rcases hqs with ⟨q2, hq2, i, hi⟩
      exact Or.inl ⟨q2, List.mem_cons_of_mem _ hq2, i, hi⟩
    · rcases watchAuthStep_next_cases st q.1 q.2 with ⟨i, t, hr, hnext⟩
        | ⟨e, hr, hnext⟩ | hnext
      · rw [hnext] at hstate ⊢
        refine Or.inl ⟨q, List.mem_cons_self _ _, i, ?_⟩
        rw [hr]
        exact congrArg (fun s => Except.ok (i, s)) hstate
      · rw [hnext] at hstate h
        exact absurd hstate.symm h
      · rw [hnext] at hstate ⊢
        exact Or.inr hstate

/-- C10: the credential attender never caches a failed authentication. In
every state reachable by `WatchAuth` from the initial empty reply, a
non-empty stored token was returned by a successful login; when an
authentication attempt fails, the stored token is cleared before the error
reply is delivered (both the delivered reply and the stored state carry an
empty token); and a state with an empty token makes the next query run a new
authentication attempt even with `fresh = false`. -/
theorem c10_watchauth_never_caches_failure :
    (∀ qs, (runWatchAuth qs).token ≠ "" →
      ∃ q ∈ qs, ∃ i, q.2 = Except.ok (i, (runWatchAuth qs).token))
    ∧ (∀ last fresh e, (fresh = true ∨ last.token = "") →
        (watchAuthStep last fresh (.error e)).1.token = ""
        ∧ (watchAuthStep last fresh (.error e)).1.err = some e
        ∧ (watchAuthStep last fresh (.error e)).2.1.token = "")
    ∧ (∀ st fresh r, st.token = "" → (watchAuthStep st fresh r).2.2 = true) := by
  refine ⟨?_, ?_, ?_⟩
  · intro qs h
    rcases runWatchAuthFrom_token_src qs wauthInit h with hok | hinit
    · exact hok
    · exact absurd hinit.symm h
  · intro last fresh e hg
    unfold watchAuthStep
    rw [if_pos hg]
    exact ⟨rfl, rfl, rfl⟩
  · intro st fresh r hst
    unfold watchAuthStep
    rw [if_pos (Or.inr hst)]
    cases r with
    | ok pr => rfl
    | error e => rfl

theorem c10_watchauth_never_caches_failure_witness :
    ((false = true ∨ wauthInit.token = ""))
    ∧ (watchAuthStep wauthInit false (.error "login failed")).1.token = ""
    ∧ (watchAuthStep wauthInit false (.error "login failed")).1.err
        = some "login failed"
    ∧ (watchAuthStep wauthInit false (.error "login failed")).2.1.token = "" :=
  ⟨Or.inr rfl,
   c10_watchauth_never_caches_failure.2.1 wauthInit false "login failed"
     (Or.inr rfl)⟩

/-- The character for a decimal digit. -/
def digitChar (d : Nat) : Char := Char.ofNat (48 + d)

/-- Decimal digits of `n`, prepended to `acc` (fuel-based so that it is
structural; `fuel > n` suffices). -/
def natToCharsCore (fuel n : Nat) (acc : List Char) : List Char :=
  match fuel with
  | 0 => acc
  | fuel2 + 1 =>
    if n < 10 then digitChar n :: acc
    else natToCharsCore fuel2 (n / 10) (digitChar (n % 10) :: acc)

/-- Decimal representation of a natural number. -/
def natToChars (n : Nat) : List Char := natToCharsCore (n + 1) n []

/-- Options accepted by the resource sender (resource.go lines 56-60). -/
structure SendOptions where
  maxRetries : Nat
  onlyPut : Bool
  onlyPost : Bool
deriving DecidableEq, Repr

/-- An HTTP response, reduced to its status code and body bytes. -/
structure HResp where
  status : Nat
  body : List Char
deriving DecidableEq, Repr

/-- `bodyToError` (folder.go lines 22-37): the error message built from the
response status and at most 4096 bytes of the response body (the body is
read through `io.LimitReader(resp.Body, 4096)`). -/
def bodyToErrorMsg (r : HResp) : List Char :=
  "HTTP Status ".toList ++ natToChars r.status
    ++ ", Response: ".toList ++ r.body.take 4096

/-- Outcome of one retry attempt of `sendResource`: success, an error that
the backoff loop retries, or a `backoff.PermanentError`. -/
inductive AttemptOut
  | ok
  | transientErr (msg : List Char)
  | permanentErr (msg : List Char)
deriving DecidableEq, Repr

/-- The POST statuses that trigger the PUT fallback (resource.go line 105):
409 Conflict and 500 Internal Server Error. -/
def fallbackStatus (r : HResp) : Bool := r.status = 409 || r.status = 500

/-- The status check closing a `sendResource` attempt (resource.go lines
141-150): a nil response (no POST and no PUT performed) falls through to
success; otherwise only 200, 201 and 204 are success and any other status
becomes an error carrying the decoded body. -/
def finalCheck (resp : Option HResp) : AttemptOut :=
  match resp with
  | none => .ok
  | some r =>
    if r.status = 200 ∨ r.status = 201 ∨ r.status = 204 then .ok
    else .transientErr (bodyToErrorMsg r)

/-- The PUT stage of a `sendResource` attempt (resource.go lines 104-140):
entered when `only_post` is not set and either `only_put` is set or the POST
status was 409/500; an empty PUT URL is the permanent POST-failed error;
otherwise the PUT is issued and the attempt's final response becomes the PUT
response. Returns (outcome, POST issued, PUT issued). -/
def putStage (opts : SendOptions) (putURL : GoPath) (resp : Option HResp)
    (putResult : Except (List Char) HResp) (postIssued : Bool) :
    AttemptOut × Bool × Bool :=
  if opts.onlyPost = false
      ∧ (opts.onlyPut = true ∨ (resp.map fallbackStatus).getD false = true) then
    if putURL = [] then
      (.permanentErr "POST failed and there is no PUT".toList, postIssued, false)
    else
      match putResult with
      | .error e => (.transientErr e, postIssued, true)
      | .ok r => (finalCheck (some r), postIssued, true)
  else (finalCheck resp, postIssued, false)

/-- One retry attempt of `Server.sendResource` (resource.go lines 76-151):
issue the POST unless `only_put` is set (a transport failure of the POST
ends the attempt), then run the PUT stage. `postResult`/`putResult` are the
transport outcomes of the two possible requests. Returns
(outcome, POST issued, PUT issued). -/
def sendAttempt (opts : SendOptions) (putURL : GoPath)
    (postResult putResult : Except (List Char) HResp) :
    AttemptOut × Bool × Bool :=
  if opts.onlyPut = true then
    putStage opts putURL none putResult false
  else
    match postResult with
    | .error e => (.transientErr e, true, false)
    | .ok r => putStage opts putURL (some r) putResult true

/-- C4 counterexample: a POST answered `202 Accepted` — a 2xx status that is
none of the named fallback triggers — is not treated as success by the code:
the attempt fails with the decoded-body error, while the claim predicts
success for every 2xx status other than the fallback triggers. -/
theorem c4_counterexample :
    (200 ≤ 202 ∧ 202 < 300 ∧ (202 : Nat) ≠ 409 ∧ (202 : Nat) ≠ 500)
    ∧ (sendAttempt ⟨3, false, false⟩ "/put".toList
        (.ok ⟨202, "body".toList⟩) (.ok ⟨200, []⟩)).1
      = .transientErr ("HTTP Status ".toList ++ natToChars 202
          ++ ", Response: ".toList ++ "body".toList)
    ∧ (sendAttempt ⟨3, false, false⟩ "/put".toList
        (.ok ⟨202, "body".toList⟩) (.ok ⟨200, []⟩)).1 ≠ .ok := by
  refine ⟨by decide, by decide, by decide⟩


theorem putStage_post_passthrough (opts : SendOptions) (putURL : GoPath)
    (resp : Option HResp) (putR : Except (List Char) HResp) (b : Bool) :
    (putStage opts putURL resp putR b).2.1 = b := by
  unfold putStage
  by_cases hc : opts.onlyPost = false
      ∧ (opts.onlyPut = true ∨ (resp.map fallbackStatus).getD false = true)
  · rw [if_pos hc]
    by_cases hu : putURL = []
    · rw [if_pos hu]
    · rw [if_neg hu]
      cases putR with
      | error e => rfl
      | ok r => rfl
  · rw [if_neg hc]

theorem putStage_put_issued (opts : SendOptions) (putURL : GoPath)
    (resp : Option HResp) (putR : Except (List Char) HResp) (b : Bool) :
    (putStage opts putURL resp putR b).2.2 = true ↔
      ((opts.onlyPost = false
          ∧ (opts.onlyPut = true ∨ (resp.map fallbackStatus).getD false = true))
        ∧ putURL ≠ []) := by
  unfold putStage
  by_cases hc : opts.onlyPost = false
      ∧ (opts.onlyPut = true ∨ (resp.map fallbackStatus).getD false = true)
  · rw [if_pos hc]
    by_cases hu : putURL = []
    · rw [if_pos hu]
      simp [hu]
    · rw [if_neg hu]
      cases putR with
      | error e => simp [hc, hu]
      | ok r => simp [hc, hu]
  · rw [if_neg hc]
    simp [hc]

theorem putStage_outcome_of_skipped (opts : SendOptions) (putURL : GoPath)
    (resp : Option HResp) (putR : Except (List Char) HResp) (b : Bool)
    (hc : ¬(opts.onlyPost = false
        ∧ (opts.onlyPut = true ∨ (resp.map fallbackStatus).getD false = true))) :
    (putStage opts putURL resp putR b).1 = finalCheck resp := by
  unfold putStage
  rw [if_neg hc]

theorem putStage_outcome_of_empty (opts : SendOptions) (putURL : GoPath)
    (resp : Option HResp) (putR : Except (List Char) HResp) (b : Bool)
    (hc : opts.onlyPost = false
        ∧ (opts.onlyPut = true ∨ (resp.map fallbackStatus).getD false = true))
    (hu : putURL = []) :
    (putStage opts putURL resp putR b).1
      = .permanentErr "POST failed and there is no PUT".toList := by
  unfold putStage
  rw [if_pos hc, if_pos hu]

theorem putStage_outcome_of_put_ok (opts : SendOptions) (putURL : GoPath)
    (resp : Option HResp) (r2 : HResp) (b : Bool)
    (hc : opts.onlyPost = false
        ∧ (opts.onlyPut = true ∨ (resp.map fallbackStatus).getD false = true))
    (hu : putURL ≠ []) :
    (putStage opts putURL resp (.ok r2) b).1 = finalCheck (some r2) := by
  unfold putStage
  rw [if_pos hc, if_neg hu]

/-- C4 (amended): in each retry attempt of `sendResource`, a POST is issued
exactly when `only_put` is not set; a PUT is issued exactly when `only_post`
is not set, the PUT URL is non-empty, and either `only_put` is set or the
POST came back with status 409 or 500; entering the PUT branch with an empty
PUT URL yields the permanent POST-failed error; the final response is a
success exactly for statuses 200, 201 and 204 — not for every 2xx status —
and any other status becomes an error whose message decodes at most 4096
bytes of the response body. -/
theorem c4_send_resource_attempt (opts : SendOptions) (putURL : GoPath)
    (postR putR : Except (List Char) HResp) :
    ((sendAttempt opts putURL postR putR).2.1 = !opts.onlyPut)
    ∧ ((sendAttempt opts putURL postR putR).2.2 = true ↔
        (opts.onlyPost = false ∧ putURL ≠ []
          ∧ (opts.onlyPut = true
             ∨ (opts.onlyPut = false
                ∧ ∃ r, postR = .ok r ∧ fallbackStatus r = true))))
    ∧ (∀ r, opts.onlyPost = false → putURL = [] →
        (opts.onlyPut = true
          ∨ (opts.onlyPut = false ∧ postR = .ok r ∧ fallbackStatus r = true)) →
        (sendAttempt opts putURL postR putR).1
          = .permanentErr "POST failed and there is no PUT".toList)
    ∧ (∀ r, (sendAttempt opts putURL postR putR).2.2 = false →
        opts.onlyPut = false → putURL ≠ [] → postR = .ok r →
        (sendAttempt opts putURL postR putR).1 = finalCheck (some r))
    ∧ (∀ r2, (sendAttempt opts putURL postR putR).2.2 = true → putR = .ok r2 →
        (sendAttempt opts putURL postR putR).1 = finalCheck (some r2))
    ∧ (∀ r, (finalCheck (some r) = .ok
          ↔ (r.status = 200 ∨ r.status = 201 ∨ r.status = 204))
        ∧ (¬(r.status = 200 ∨ r.status = 201 ∨ r.status = 204) →
            finalCheck (some r) = .transientErr
              ("HTTP Status ".toList ++ natToChars r.status
                ++ ", Response: ".toList ++ r.body.take 4096))) := by
  have hfc : ∀ r : HResp, (finalCheck (some r) = .ok
        ↔ (r.status = 200 ∨ r.status = 201 ∨ r.status = 204))
      ∧ (¬(r.status = 200 ∨ r.status = 201 ∨ r.status = 204) →
          finalCheck (some r) = .transientErr
            ("HTTP Status ".toList ++ natToChars r.status
              ++ ", Response: ".toList ++ r.body.take 4096)) := by
    intro r
    constructor
    · by_cases hs : r.status = 200 ∨ r.status = 201 ∨ r.status = 204
      · simp [finalCheck, hs]
      · simp [finalCheck, hs, bodyToErrorMsg]
    · intro hs
      simp [finalCheck, hs, bodyToErrorMsg]
  by_cases hp : opts.onlyPut = true
  · -- only_put: no POST, straight to the PUT stage
    have hsa : sendAttempt opts putURL postR putR
        = putStage opts putURL none putR false := by
      unfold sendAttempt
      rw [if_pos hp]
    refine ⟨?_, ?_, ?_, ?_, ?_, hfc⟩
    · rw [hsa, putStage_post_passthrough, hp]
      rfl
    · rw [hsa, putStage_put_issued]
      constructor
      · rintro ⟨⟨h1, _⟩, h3⟩
        exact ⟨h1, h3, Or.inl hp⟩
      · rintro ⟨h1, h3, _⟩
        exact ⟨⟨h1, Or.inl hp⟩, h3⟩
    · intro r h1 hu _
      rw [hsa]
      exact putStage_outcome_of_empty opts putURL none putR false
        ⟨h1, Or.inl hp⟩ hu
    · intro r _ hpf _ _
      rw [hp] at hpf
      exact absurd hpf (by decide)
    · intro r2 h22 hpr
      rw [hsa] at h22 ⊢
      rcases (putStage_put_issued opts putURL none putR false).mp h22
        with ⟨hc, hu⟩
      rw [hpr]
      exact putStage_outcome_of_put_ok opts putURL none r2 false hc hu
  · -- POST issued first
    have hp2 : opts.onlyPut = false := by
      revert hp
      cases opts.onlyPut <;> simp
    cases postR with
    | error e =>
      have hsa : sendAttempt opts putURL (.error e) putR
          = (.transientErr e, true, false) := by
        unfold sendAttempt
        rw [if_neg hp]
      refine ⟨?_, ?_, ?_, ?_, ?_, hfc⟩
      · rw [hsa, hp2]
        rfl
      · rw [hsa]
        constructor
        · intro hfalse
          exact absurd hfalse (by simp)
        · rintro ⟨_, _, hor | ⟨_, ⟨r, hre, _⟩⟩⟩
          · exact absurd hor hp
          · exact absurd hre (by simp)
      · intro r _ _ hor
        rcases hor with hor | ⟨_, hre, _⟩
        · exact absurd hor hp
        · exact absurd hre (by simp)
      · intro r _ _ _ hre
        exact absurd hre (by simp)
      · intro r2 h22 _
        rw [hsa] at h22
        exact absurd h22 (by simp)
    | ok r =>
      have hsa : sendAttempt opts putURL (.ok r) putR
          = putStage opts putURL (some r) putR true := by
        unfold sendAttempt
        rw [if_neg hp]
      have hmap : ((some r).map fallbackStatus).getD false = fallbackStatus r := rfl
      refine ⟨?_, ?_, ?_, ?_, ?_, hfc⟩
      · rw [hsa, putStage_post_passthrough, hp2]
        rfl
      · rw [hsa, putStage_put_issued]
        constructor
        · rintro ⟨⟨h1, hor⟩, h3⟩
          rcases hor with hor | hfb
          · exact absurd hor hp
          · rw [hmap] at hfb
            exact ⟨h1, h3, Or.inr ⟨hp2, r, rfl, hfb⟩⟩
        · rintro ⟨h1, h3, hor | ⟨_, r2, hre, hfb⟩⟩
          · exact absurd hor hp
          · have hrr : r2 = r := by simpa using hre.symm
            rw [hrr] at hfb
            exact ⟨⟨h1, Or.inr (by rw [hmap]; exact hfb)⟩, h3⟩
      · intro r0 h1 hu hor
        rcases hor with hor | ⟨_, hre, hfb⟩
        · exact absurd hor hp
        · have hrr : r0 = r := by simpa using hre.symm
          rw [hrr] at hfb
          rw [hsa]
          exact putStage_outcome_of_empty opts putURL (some r) putR true
            ⟨h1, Or.inr (by rw [hmap]; exact hfb)⟩ hu
      · intro r0 h22 _ hu hre
        have hrr : r0 = r := by simpa using hre.symm
        rw [hsa] at h22 ⊢
        have hc : ¬(opts.onlyPost = false
            ∧ (opts.onlyPut = true
               ∨ ((some r).map fallbackStatus).getD false = true)) := by
          intro hcon
          have := (putStage_put_issued opts putURL (some r) putR true).mpr
            ⟨hcon, hu⟩
          rw [h22] at this
          exact absurd this (by decide)
        rw [hrr, putStage_outcome_of_skipped opts putURL (some r) putR true hc]
      · intro r2 h22 hpr
        rw [hsa] at h22 ⊢
        rcases (putStage_put_issued opts putURL (some r) putR true).mp h22
          with ⟨hc, hu⟩
        rw [hpr]
        exact putStage_outcome_of_put_ok opts putURL (some r) r2 true hc hu

theorem c4_send_resource_attempt_witness :
    (¬((202 : Nat) = 200 ∨ (202 : Nat) = 201 ∨ (202 : Nat) = 204))
    ∧ finalCheck (some ⟨202, "body".toList⟩) = .transientErr
        ("HTTP Status ".toList ++ natToChars 202
          ++ ", Response: ".toList ++ ("body".toList).take 4096) :=
  ⟨by decide,
   ((c4_send_resource_attempt ⟨3, false, false⟩ "/put".toList
      (.ok ⟨202, "body".toList⟩) (.ok ⟨200, []⟩)).2.2.2.2.2
      ⟨202, "body".toList⟩).2 (by decide)⟩

/-- The parsed reply of `GET /api/alert?q:id:eq=<id>` (`alertResponse`,
alert.go lines 27-30). -/
structure AlertQueryReply where
  data : List String
  next : String
deriving DecidableEq, Repr

/-- `httpAlertRequest` (alert.go lines 32-37): the alert fields relevant
here plus the `Response` field meant to receive the parsed GET reply. -/
structure HttpAlertReq where
  id : String
  resolvedAt : String
  response : AlertQueryReply
deriving DecidableEq, Repr

/-- `httpAlertRequest.ReadBody` (alert.go lines 76-82). The Go method has a
VALUE receiver, so the decode writes into a copy of the request object and
only the error is returned; this model returns the updated copy so that the
call site can faithfully discard it, as Go does. -/
def alertReadBody (har : HttpAlertReq) (parsed : AlertQueryReply) :
    HttpAlertReq :=
  { har with response := parsed }

/-- `Server.getResource` (resource.go lines 156-201) specialised to the
alert query: on a 2xx status (200..204) it calls `resource.ReadBody` through
the `getResource` interface. Because `ReadBody` has a value receiver, the
updated copy produced by the decode is discarded and the caller's object is
returned unchanged. Returns (error, the object as the caller sees it
afterwards). -/
def getResourceAlert (har : HttpAlertReq) (getStatus : Nat)
    (parsed : AlertQueryReply) : Option String × HttpAlertReq :=
  if 200 ≤ getStatus ∧ getStatus ≤ 204 then
    let _updatedCopy := alertReadBody har parsed
    (none, har)
  else (some "get request returned error", har)

/-- `Server.ClearAlert` (alert.go lines 98-116): GET the alert by id; on a
GET error do nothing; otherwise PUT the `resolved_at` update only when
`alert.Response.Data` is non-empty. Returns whether the PUT was issued. -/
def clearAlertGo (alertID : String) (getStatus : Nat)
    (parsed : AlertQueryReply) : Bool :=
  let alert : HttpAlertReq := ⟨alertID, "now", ⟨[], ""⟩⟩
  match getResourceAlert alert getStatus parsed with
  | (some _, _) => false
  | (none, alertAfter) => decide (alertAfter.response.data ≠ [])

/-- C5 (code defect): `ClearAlert` never issues the PUT, whatever the
backend returns for the GET query, because `ReadBody`'s value receiver
decodes the reply into a discarded copy and `alert.Response.Data` stays
nil. The claim (and the code's own structure: the `Response` field exists
precisely to carry the parsed GET reply back) requires a PUT whenever the
returned data array is non-empty. -/
theorem c5_clear_alert_never_puts (alertID : String) (getStatus : Nat)
    (parsed : AlertQueryReply) :
    clearAlertGo alertID getStatus parsed = false := by
  by_cases hs : 200 ≤ getStatus ∧ getStatus ≤ 204
  · simp [clearAlertGo, getResourceAlert, alertReadBody, hs]
  · simp [clearAlertGo, getResourceAlert, alertReadBody, hs]

/-- C5, evaluated at the failing input: the backend holds a record for alert
id `X` (the GET returns 200 with a non-empty data array), yet no PUT is
issued. -/
theorem c5_clear_alert_never_puts_witness :
    clearAlertGo "X" 200 ⟨["existing-alert-record"], ""⟩ = false :=
  c5_clear_alert_never_puts "X" 200 ⟨["existing-alert-record"], ""⟩

/-- State of the dispatch loop's two input channels (part_015 lines
763-787): completed debouncer results pending on the `tasks` channel and
file events pending on the `events` channel, each identified here by the
file path they carry. -/
structure DispatchQueues where
  results : List GoPath
  events : List GoPath
deriving DecidableEq, Repr

/-- One iteration of the dispatch loop's `select` (part_015 lines 763-787).
Per the Go specification, when several communications can proceed, `select`
chooses one of them via uniform pseudo-random selection — the textual order
of the cases (tasks first, then events) confers no priority. Both
consumptions are therefore enabled whenever both channels are non-empty. -/
inductive DispatchSelect : DispatchQueues → DispatchQueues → Prop
  | consumeResult (t : GoPath) (ts es : List GoPath) :
      DispatchSelect ⟨t :: ts, es⟩ ⟨ts, es⟩
  | consumeEvent (ts : List GoPath) (e : GoPath) (es : List GoPath) :
      DispatchSelect ⟨ts, e :: es⟩ ⟨ts, es⟩

/-- C7 (code defect): with one completed-debouncer result and one file event
simultaneously ready, the dispatch loop's `select` may legally consume the
file event first, leaving the result pending — Go's `select` picks uniformly
at random among ready cases, so the case order used by the code (with its
comment claiming priority for results) guarantees no priority, and a
sustained burst of events can keep deferring a pending result. -/
theorem c7_no_select_priority :
    DispatchSelect ⟨["r".toList], ["e".toList]⟩ ⟨["r".toList], []⟩
    ∧ (["r".toList] : List GoPath) ≠ [] :=
  ⟨DispatchSelect.consumeEvent ["r".toList] "e".toList [], by decide⟩

theorem entryEvents_setH_self (h : Hist) (p : GoPath) (e : HEntry) :
    entryEvents (setH h p e) p = e.events := by
  unfold entryEvents
  rw [lookupH_setH_self]
  rfl

theorem entryEvents_setH_ne (h : Hist) (p q : GoPath) (e : HEntry)
    (hne : p ≠ q) : entryEvents (setH h p e) q = entryEvents h q := by
  unfold entryEvents
  rw [lookupH_setH_ne h p q e hne]

/-- `CreateTask` either finds a live events channel and only re-stores the
task, or allocates the channel (spawning a debouncer). -/
theorem createTask_cases (h : Hist) (p : GoPath) :
    (entryEvents h p = true
      ∧ createTask h p = (setH h p ((lookupH h p).getD ⟨0, false⟩), false))
    ∨ (entryEvents h p = false
      ∧ createTask h p
        = (setH h p ⟨((lookupH h p).getD ⟨0, false⟩).uploaded, true⟩, true)) := by
  unfold createTask entryEvents
  cases hl : lookupH h p with
  | none => simp
  | some e =>
    cases he : e.events with
    | true => simp [he]
    | false => simp [he]

theorem createTask_spawn_iff (h : Hist) (p : GoPath) :
    (createTask h p).2 = true ↔ entryEvents h p = false := by
  rcases createTask_cases h p with ⟨he, hc⟩ | ⟨he, hc⟩
  · rw [hc, he]
    simp
  · rw [hc, he]
    simp

theorem createTask_events_self (h : Hist) (p : GoPath) :
    entryEvents (createTask h p).1 p = true := by
  rcases createTask_cases h p with ⟨he, hc⟩ | ⟨he, hc⟩
  · rw [hc]
    unfold entryEvents at he ⊢
    rw [lookupH_setH_self]
    cases hl : lookupH h p with
    | none =>
      rw [hl] at he
      exact absurd he (by simp)
    | some e =>
      rw [hl] at he
      simpa using he
  · rw [hc]
    rw [entryEvents_setH_self]

theorem createTask_events_ne (h : Hist) (p q : GoPath) (hne : p ≠ q) :
    entryEvents (createTask h p).1 q = entryEvents h q := by
  rcases createTask_cases h p with ⟨_, hc⟩ | ⟨_, hc⟩ <;>
    rw [hc] <;> exact entryEvents_setH_ne h p q _ hne

theorem createTask_keysNodup (h : Hist) (p : GoPath)
    (hnd : (h.map Prod.fst).Nodup) :
    (((createTask h p).1).map Prod.fst).Nodup := by
  rcases createTask_cases h p with ⟨_, hc⟩ | ⟨_, hc⟩ <;>
    rw [hc] <;> exact keysNodup_setH h p _ hnd

theorem removeTask_events_self (h : Hist) (p : GoPath)
    (hnd : (h.map Prod.fst).Nodup) :
    entryEvents (removeTask h p) p = false := by
  unfold removeTask
  cases hl : lookupH h p with
  | none =>
    unfold entryEvents
    rw [hl]
    rfl
  | some e =>
    unfold entryEvents
    rw [lookupH_delH_self h p hnd]
    rfl

theorem removeTask_events_ne (h : Hist) (p q : GoPath) (hne : p ≠ q) :
    entryEvents (removeTask h p) q = entryEvents h q := by
  unfold removeTask
  cases hl : lookupH h p with
  | none => rfl
  | some e =>
    unfold entryEvents
    rw [lookupH_delH_ne h p q hne]

theorem removeTask_keysNodup (h : Hist) (p : GoPath)
    (hnd : (h.map Prod.fst).Nodup) :
    ((removeTask h p).map Prod.fst).Nodup := by
  unfold removeTask
  cases hl : lookupH h p with
  | none => exact hnd
  | some e => exact keysNodup_delH h p hnd

/-- `CompleteTask` always stores an entry whose events channel is nil. -/
theorem completeTask_eq_setH (h : Hist) (p : GoPath) (u : Nat) :
    ∃ orig : HEntry, completeTask h p u = setH h p orig
      ∧ orig.events = false := by
  unfold completeTask
  cases hl : lookupH h p with
  | none =>
    by_cases hu : u ≠ 0
    · exact ⟨⟨u, false⟩, by simp [hu], rfl⟩
    · exact ⟨⟨0, false⟩, by simp [hu], rfl⟩
  | some e =>
    by_cases hu : u ≠ 0
    · exact ⟨⟨u, false⟩, by simp [hu], rfl⟩
    · exact ⟨⟨e.uploaded, false⟩, by simp [hu], rfl⟩

theorem completeTask_events_self (h : Hist) (p : GoPath) (u : Nat) :
    entryEvents (completeTask h p u) p = false := by
  rcases completeTask_eq_setH h p u with ⟨orig, hc, he⟩
  rw [hc, entryEvents_setH_self, he]

theorem completeTask_events_ne (h : Hist) (p q : GoPath) (u : Nat)
    (hne : p ≠ q) : entryEvents (completeTask h p u) q = entryEvents h q := by
  rcases completeTask_eq_setH h p u with ⟨orig, hc, _⟩
  rw [hc]
  exact entryEvents_setH_ne h p q orig hne

theorem completeTask_keysNodup (h : Hist) (p : GoPath) (u : Nat)
    (hnd : (h.map Prod.fst).Nodup) :
    ((completeTask h p u).map Prod.fst).Nodup := by
  rcases completeTask_eq_setH h p u with ⟨orig, hc, _⟩
  rw [hc]
  exact keysNodup_setH h p orig hnd

/-- Bump a per-path counter at `p`. -/
def incF (f : GoPath → Nat) (p : GoPath) : GoPath → Nat :=
  fun q => if q = p then f q + 1 else f q

/-- Decrement a per-path counter at `p`. -/
def decF (f : GoPath → Nat) (p : GoPath) : GoPath → Nat :=
  fun q => if q = p then f q - 1 else f q

/-- `FileHistory.Remap` (part_015 lines 915-959): rebuild the history map,
dropping every entry whose uploaded timestamp is non-zero and whose expiry
check succeeds. `expired` abstracts the environment-determined part of that
check: a positive configured expiration, `time.Since(Uploaded)` beyond it,
and an `os.Remove` outcome of success, not-exists, or is-a-directory. The
entry's `Events` channel is neither consulted nor closed. -/
def remapTask (expired : GoPath × HEntry → Bool) (h : Hist) : Hist :=
  h.filter (fun pe => !((pe.2.uploaded != 0) && expired pe))

/-- State of the watcher's dispatch loop: the history map plus, for the
debouncer lifecycle, `live p` — debouncers for `p` whose events channel is
open and whose result has not yet been consumed — and `stale p` — debouncers
whose channel was already closed (by `RemoveTask` or by a `CompleteTask` for
an older generation) and whose pending result is still to be consumed. The
dispatch loop serialises every mutation of the map, so its iterations are
the steps of this machine. -/
structure WState where
  hist : Hist
  live : GoPath → Nat
  stale : GoPath → Nat

/-- A create/write/rename event (part_015 lines 799-820): run `CreateTask`
and spawn a debouncer exactly when a new events channel was allocated. -/
def fileEventStep (s : WState) (p : GoPath) : WState :=
  ⟨(createTask s.hist p).1,
   (if (createTask s.hist p).2 then incF s.live p else s.live),
   s.stale⟩

/-- A remove event (part_015 lines 792-794): run `RemoveTask`; closing the
live channel makes its debouncer exit, but that debouncer still delivers
its one result, so it moves to the stale pool. -/
def removeEventStep (s : WState) (p : GoPath) : WState :=
  ⟨removeTask s.hist p,
   (if entryEvents s.hist p then decF s.live p else s.live),
   (if entryEvents s.hist p then incF s.stale p else s.stale)⟩

/-- Consuming the result of the live debouncer on the `tasks` channel
(part_015 lines 771-777): `CompleteTask` closes the entry's channel — the
live debouncer's own — and records the result. -/
def completeLiveStep (s : WState) (p : GoPath) (u : Nat) : WState :=
  ⟨completeTask s.hist p u, decF s.live p, s.stale⟩

/-- Consuming the result of a stale debouncer: `CompleteTask` closes the
entry's current channel, which belongs to the present live debouncer (if
any), moving that one to the stale pool. -/
def completeStaleStep (s : WState) (p : GoPath) (u : Nat) : WState :=
  ⟨completeTask s.hist p u,
   (if entryEvents s.hist p then decF s.live p else s.live),
   decF (if entryEvents s.hist p then incF s.stale p else s.stale) p⟩

/-- The `remap.C` tick of the dispatch loop (part_015 lines 778-782): run
`FileHistory.Remap` over the map. The channels of dropped entries are not
closed, so every live debouncer keeps running. -/
def remapStep (s : WState) (expired : GoPath × HEntry → Bool) : WState :=
  ⟨remapTask expired s.hist, s.live, s.stale⟩

/-- Steps of the dispatch loop (part_015 lines 763-824): file events run
`CreateTask`, remove events run `RemoveTask`, results on the `tasks` channel
run `CompleteTask`, and the 24-hour ticker runs `Remap`. -/
inductive WatchStep : WState → WState → Prop
  | fileEvent (s : WState) (p : GoPath) : WatchStep s (fileEventStep s p)
  | removeEvent (s : WState) (p : GoPath) : WatchStep s (removeEventStep s p)
  | completeLive (s : WState) (p : GoPath) (u : Nat) (hl : 1 ≤ s.live p) :
      WatchStep s (completeLiveStep s p u)
  | completeStale (s : WState) (p : GoPath) (u : Nat) (hs : 1 ≤ s.stale p) :
      WatchStep s (completeStaleStep s p u)
  | remap (s : WState) (expired : GoPath × HEntry → Bool) :
      WatchStep s (remapStep s expired)

/-- The single-debouncer property the spec claims: history keys are unique,
each path has at most one live debouncer, and the non-nil events channel in
the history entry is the authoritative indicator of the live debouncer. -/
def WInv (s : WState) : Prop :=
  ((s.hist.map Prod.fst).Nodup)
  ∧ ∀ p, s.live p ≤ 1 ∧ (entryEvents s.hist p = true ↔ s.live p = 1)

/-- States the watcher starts from: the history just loaded from disk, where
no entry holds an events channel and no debouncer exists. -/
def WInit (s : WState) : Prop :=
  ((s.hist.map Prod.fst).Nodup)
  ∧ (∀ p, entryEvents s.hist p = false)
  ∧ (∀ p, s.live p = 0)

theorem winv_of_winit (s : WState) (hinit : WInit s) : WInv s := by
  refine ⟨hinit.1, fun p => ?_⟩
  rw [hinit.2.1 p, hinit.2.2 p]
  refine ⟨Nat.zero_le 1, ?_⟩
  constructor
  · intro hfalse
    exact absurd hfalse (by decide)
  · intro hzero
    exact absurd hzero (by decide)

/-- A file event preserves the single-debouncer property. -/
theorem winv_fileEventStep (s : WState) (p : GoPath) (hinv : WInv s) :
    WInv (fileEventStep s p) := by
  obtain ⟨hnd, hloc⟩ := hinv
  refine ⟨createTask_keysNodup s.hist p hnd, fun q => ?_⟩
  show (if (createTask s.hist p).2 = true then incF s.live p else s.live) q ≤ 1
    ∧ (entryEvents (createTask s.hist p).1 q = true
       ↔ (if (createTask s.hist p).2 = true then incF s.live p
          else s.live) q = 1)
  rcases createTask_cases s.hist p with ⟨hev, hct⟩ | ⟨hev, hct⟩
  · -- the channel was already live: nothing is spawned
    have hsp : ¬ ((createTask s.hist p).2 = true) := by
      rw [hct]
      simp
    rw [if_neg hsp]
    by_cases hq : q = p
    · subst hq
      rw [createTask_events_self]
      have h1 := (hloc q).2.mp hev
      refine ⟨(hloc q).1, ?_⟩
      rw [h1]
      simp
    · rw [createTask_events_ne s.hist p q (fun hc => hq hc.symm)]
      exact hloc q
  · -- a new channel: one debouncer is spawned
    have hsp : (createTask s.hist p).2 = true := by
      rw [hct]
    rw [if_pos hsp]
    by_cases hq : q = p
    · subst hq
      rw [createTask_events_self]
      have hne1 : s.live q ≠ 1 := by
        intro hc
        have h2 := (hloc q).2.mpr hc
        rw [h2] at hev
        exact absurd hev (by decide)
      have hl0 : s.live q = 0 := by
        have hle := (hloc q).1
        omega
      unfold incF
      simp [hl0]
    · unfold incF
      rw [createTask_events_ne s.hist p q (fun hc => hq hc.symm)]
      simpa [hq] using hloc q

/-- A remove event preserves the single-debouncer property. -/
theorem winv_removeEventStep (s : WState) (p : GoPath) (hinv : WInv s) :
    WInv (removeEventStep s p) := by
  obtain ⟨hnd, hloc⟩ := hinv
  refine ⟨removeTask_keysNodup s.hist p hnd, fun q => ?_⟩
  show (if entryEvents s.hist p = true then decF s.live p else s.live) q ≤ 1
    ∧ (entryEvents (removeTask s.hist p) q = true
       ↔ (if entryEvents s.hist p = true then decF s.live p
          else s.live) q = 1)
  by_cases hev : entryEvents s.hist p = true
  · rw [if_pos hev]
    by_cases hq : q = p
    · subst hq
      rw [removeTask_events_self s.hist q hnd]
      have h1 := (hloc q).2.mp hev
      unfold decF
      simp [h1]
    · rw [removeTask_events_ne s.hist p q (fun hc => hq hc.symm)]
      unfold decF
      simpa [hq] using hloc q
  · rw [if_neg hev]
    by_cases hq : q = p
    · subst hq
      rw [removeTask_events_self s.hist q hnd]
      have hev2 : entryEvents s.hist q = false := by
        revert hev
        cases entryEvents s.hist q <;> simp
      have hne1 : s.live q ≠ 1 := by
        intro hc
        have h2 := (hloc q).2.mpr hc
        rw [h2] at hev2
        exact absurd hev2 (by decide)
      refine ⟨(hloc q).1, ?_, ?_⟩
      · intro hf
        exact absurd hf (by decide)
      · intro h1
        exact absurd h1 hne1
    · rw [removeTask_events_ne s.hist p q (fun hc => hq hc.symm)]
      exact hloc q

/-- Consuming the live debouncer's result preserves the single-debouncer
property. -/
theorem winv_completeLiveStep (s : WState) (p : GoPath) (u : Nat)
    (hl : 1 ≤ s.live p) (hinv : WInv s) : WInv (completeLiveStep s p u) := by
  obtain ⟨hnd, hloc⟩ := hinv
  refine ⟨completeTask_keysNodup s.hist p u hnd, fun q => ?_⟩
  show decF s.live p q ≤ 1
    ∧ (entryEvents (completeTask s.hist p u) q = true ↔ decF s.live p q = 1)
  by_cases hq : q = p
  · subst hq
    rw [completeTask_events_self]
    have h1 : s.live q = 1 := Nat.le_antisymm (hloc q).1 hl
    unfold decF
    simp [h1]
  · rw [completeTask_events_ne s.hist p q u (fun hc => hq hc.symm)]
    unfold decF
    simpa [hq] using hloc q

/-- Consuming a stale debouncer's result preserves the single-debouncer
property. -/
theorem winv_completeStaleStep (s : WState) (p : GoPath) (u : Nat)
    (hinv : WInv s) : WInv (completeStaleStep s p u) := by
  obtain ⟨hnd, hloc⟩ := hinv
  refine ⟨completeTask_keysNodup s.hist p u hnd, fun q => ?_⟩
  show (if entryEvents s.hist p = true then decF s.live p else s.live) q ≤ 1
    ∧ (entryEvents (completeTask s.hist p u) q = true
       ↔ (if entryEvents s.hist p = true then decF s.live p
          else s.live) q = 1)
  by_cases hev : entryEvents s.hist p = true
  · rw [if_pos hev]
    by_cases hq : q = p
    · subst hq
      rw [completeTask_events_self]
      have h1 := (hloc q).2.mp hev
      unfold decF
      simp [h1]
    · rw [completeTask_events_ne s.hist p q u (fun hc => hq hc.symm)]
      unfold decF
      simpa [hq] using hloc q
  · rw [if_neg hev]
    by_cases hq : q = p
    · subst hq
      rw [completeTask_events_self]
      have hev2 : entryEvents s.hist q = false := by
        revert hev
        cases entryEvents s.hist q <;> simp
      have hne1 : s.live q ≠ 1 := by
        intro hc
        have h2 := (hloc q).2.mpr hc
        rw [h2] at hev2
        exact absurd hev2 (by decide)
      refine ⟨(hloc q).1, ?_, ?_⟩
      · intro hf
        exact absurd hf (by decide)
      · intro h1
        exact absurd h1 hne1
    · rw [completeTask_events_ne s.hist p q u (fun hc => hq hc.symm)]
      exact hloc q

/-- A freshly loaded history with one entry whose uploaded timestamp is
non-zero but stale, and no debouncer. -/
def c2s0 : WState := ⟨[("a".toList, ⟨nsPerSec, false⟩)], fun _ => 0, fun _ => 0⟩

/-- After a write event for the path: its debouncer is spawned. -/
def c2s1 : WState := fileEventStep c2s0 "a".toList

/-- After the 24-hour remap tick, with the entry past its expiration and the
file removal succeeding: `Remap` drops the entry without closing its live
events channel. -/
def c2s2 : WState := remapStep c2s1 (fun _ => true)

/-- After a further create event for the same path: `CreateTask` finds no
entry and spawns a second debouncer. -/
def c2s3 : WState := fileEventStep c2s2 "a".toList

/-- C2 (code defect): the dispatch loop's remap case (part_015 lines
778-782) breaks the single-debouncer invariant the spec states. From a
freshly loaded history holding one entry with a stale non-zero uploaded
time, a write event spawns the path's debouncer; the periodic `Remap`
(part_015 lines 915-959) then expires the entry and drops it without
closing its live events channel — unlike `RemoveTask`, `CompleteTask` and
`Cleanup`, which all close the channel before discarding an entry — so the
debouncer stays active while the history shows no channel; a subsequent
create event finds no entry and spawns a second debouncer for the same
path. The state with two live debouncers is reachable from a legitimate
initial state. -/
theorem c2_remap_breaks_single_debouncer :
    WInit c2s0
    ∧ Relation.ReflTransGen WatchStep c2s0 c2s3
    ∧ c2s1.live "a".toList = 1
    ∧ entryEvents c2s1.hist "a".toList = true
    ∧ entryEvents c2s2.hist "a".toList = false
    ∧ c2s2.live "a".toList = 1
    ∧ c2s3.live "a".toList = 2 := by
  refine ⟨⟨by decide, ?_, fun p => rfl⟩, ?_, by decide, by decide, by decide,
    by decide, by decide⟩
  · intro p
    by_cases h : ("a".toList : GoPath) = p
    · subst h
      decide
    · have hnone : lookupH c2s0.hist p = none := by
        show (if "a".toList = p then some (⟨nsPerSec, false⟩ : HEntry)
              else lookupH [] p) = none
        rw [if_neg h]
        rfl
      unfold entryEvents
      rw [hnone]
      rfl
  · exact Relation.ReflTransGen.tail
      (Relation.ReflTransGen.tail
        (Relation.ReflTransGen.single (WatchStep.fileEvent c2s0 "a".toList))
        (WatchStep.remap c2s1 (fun _ => true)))
      (WatchStep.fileEvent c2s2 "a".toList)

/-- Inverse of `digitChar` on decimal digit characters. -/
def charToDigit (c : Char) : Option Nat :=
  if '0' ≤ c ∧ c ≤ '9' then some (c.toNat - 48) else none

/-- Parse decimal digits with accumulator; fails on any non-digit. -/
def parseNatCore : List Char → Nat → Option Nat
  | [], acc => some acc
  | c :: cs, acc =>
    match charToDigit c with
    | some d => parseNatCore cs (acc * 10 + d)
    | none => none

/-- Parse a non-empty all-digit string as a natural number; anything else
fails (modelling a `time.Parse` failure). -/
def parseNat : List Char → Option Nat
  | [] => none
  | c :: cs => parseNatCore (c :: cs) 0

theorem charToDigit_digitChar (d : Nat) (hd : d < 10) :
    charToDigit (digitChar d) = some d := by
  interval_cases d <;> decide

theorem digitChar_not_comma (d : Nat) (hd : d < 10) : digitChar d ≠ ',' := by
  interval_cases d <;> decide

theorem digitChar_not_newline (d : Nat) (hd : d < 10) : digitChar d ≠ '\n' := by
  interval_cases d <;> decide

theorem digitChar_not_ws (d : Nat) (hd : d < 10) :
    (digitChar d).isWhitespace = false := by
  interval_cases d <;> decide

theorem parseNatCore_cons (c : Char) (cs : List Char) (a d : Nat)
    (h : charToDigit c = some d) :
    parseNatCore (c :: cs) a = parseNatCore cs (a * 10 + d) := by
  simp only [parseNatCore, h]

theorem parseNatCore_natToCharsCore (fuel : Nat) :
    ∀ n rest a, n < fuel →
      ∃ k, parseNatCore (natToCharsCore fuel n rest) a
        = parseNatCore rest (a * 10 ^ k + n) := by
  induction fuel with
  | zero =>
    intro n rest a h
    exact absurd h (Nat.not_lt_zero n)
  | succ fuel ih =>
    intro n rest a h
    unfold natToCharsCore
    by_cases h10 : n < 10
    · rw [if_pos h10]
      refine ⟨1, ?_⟩
      rw [parseNatCore_cons _ _ _ _ (charToDigit_digitChar n h10), pow_one]
    · rw [if_neg h10]
      have hd : n / 10 < fuel := by
        have h1 : n / 10 < n := Nat.div_lt_self (by omega) (by omega)
        omega
      rcases ih (n / 10) (digitChar (n % 10) :: rest) a hd with ⟨k, hk⟩
      refine ⟨k + 1, ?_⟩
      rw [hk]
      rw [parseNatCore_cons _ _ _ _
        (charToDigit_digitChar (n % 10) (Nat.mod_lt n (by omega)))]
      have hdm : n / 10 * 10 + n % 10 = n := by omega
      have harith : (a * 10 ^ k + n / 10) * 10 + n % 10
          = a * 10 ^ (k + 1) + n := by
        rw [pow_succ]
        calc (a * 10 ^ k + n / 10) * 10 + n % 10
            = a * (10 ^ k * 10) + (n / 10 * 10 + n % 10) := by ring
          _ = a * (10 ^ k * 10) + n := by rw [hdm]
      rw [harith]

theorem natToCharsCore_shape (fuel : Nat) :
    ∀ n rest, n < fuel →
      ∃ out, natToCharsCore fuel n rest = out ++ rest ∧ out ≠ []
        ∧ ∀ c ∈ out, ∃ d, d < 10 ∧ c = digitChar d := by
  induction fuel with
  | zero =>
    intro n rest h
    exact absurd h (Nat.not_lt_zero n)
  | succ fuel ih =>
    intro n rest h
    unfold natToCharsCore
    by_cases h10 : n < 10
    · rw [if_pos h10]
      refine ⟨[digitChar n], rfl, by simp, ?_⟩
      intro c hc
      rw [List.mem_singleton] at hc
      exact ⟨n, h10, hc⟩
    · rw [if_neg h10]
      have hd : n / 10 < fuel := by
        have h1 : n / 10 < n := Nat.div_lt_self (by omega) (by omega)
        omega
      rcases ih (n / 10) (digitChar (n % 10) :: rest) hd with ⟨out, heq, hne, hdig⟩
      refine ⟨out ++ [digitChar (n % 10)], ?_, by simp, ?_⟩
      · rw [heq]
        simp
      · intro c hc
        rw [List.mem_append, List.mem_singleton] at hc
        rcases hc with hc | hc
        · exact hdig c hc
        · exact ⟨n % 10, Nat.mod_lt n (by omega), hc⟩

theorem natToChars_shape (n : Nat) :
    natToChars n ≠ [] ∧ ∀ c ∈ natToChars n, ∃ d, d < 10 ∧ c = digitChar d := by
  rcases natToCharsCore_shape (n + 1) n [] (Nat.lt_succ_self n)
    with ⟨out, heq, hne, hdig⟩
  unfold natToChars
  rw [heq, List.append_nil]
  exact ⟨hne, hdig⟩

theorem parseNat_natToChars (n : Nat) : parseNat (natToChars n) = some n := by
  obtain ⟨hne, _⟩ := natToChars_shape n
  rcases parseNatCore_natToCharsCore (n + 1) n [] 0 (Nat.lt_succ_self n)
    with ⟨k, hk⟩
  have h1 : parseNat (natToChars n) = parseNatCore (natToChars n) 0 := by
    cases hc : natToChars n with
    | nil => exact absurd hc hne
    | cons c cs => rfl
  rw [h1]
  have h2 : parseNatCore (natToChars n) 0 = parseNatCore [] (0 * 10 ^ k + n) := hk
  rw [h2]
  show some (0 * 10 ^ k + n) = some n
  norm_num

/-- `bufio.ScanLines` drops one carriage return from the end of a line. -/
def dropCR (cs : List Char) : List Char :=
  match cs.reverse with
  | c :: rest => if c = '\r' then rest.reverse else cs
  | [] => cs

/-- `bufio.Scanner` with `bufio.ScanLines`: split at each newline (the
newline is not part of the token, a final `\r` is dropped), and emit any
non-empty remainder at end of input. `acc` is the current line, reversed. -/
def splitLinesCore : List Char → List Char → List (List Char)
  | [], acc => if acc = [] then [] else [dropCR acc.reverse]
  | c :: rest, acc =>
    if c = '\n' then dropCR acc.reverse :: splitLinesCore rest []
    else splitLinesCore rest (c :: acc)

/-- The lines of a text file, as the scanner in `FileHistory.Load` reads
them. -/
def splitLines (cs : List Char) : List (List Char) := splitLinesCore cs []

/-- `strings.TrimSpace`, leading half. -/
def trimLeft (cs : List Char) : List Char :=
  cs.dropWhile (fun c => c.isWhitespace)

/-- `strings.TrimSpace`, trailing half. -/
def trimRight (cs : List Char) : List Char :=
  (cs.reverse.dropWhile (fun c => c.isWhitespace)).reverse

/-- `strings.TrimSpace(line)`. -/
def trimSpace (cs : List Char) : List Char := trimRight (trimLeft cs)

/-- `strings.SplitN(line, ",", 2)`: split at the first comma; `none` when
there is no comma (the two-part check fails). -/
def splitComma : List Char → Option (List Char × List Char)
  | [] => none
  | c :: rest =>
    if c = ',' then some ([], rest)
    else (splitComma rest).map (fun pr => (c :: pr.1, pr.2))

theorem splitLinesCore_append_line (l : List Char) :
    ∀ acc rest, '\n' ∉ l →
      splitLinesCore (l ++ '\n' :: rest) acc
        = dropCR (acc.reverse ++ l) :: splitLines rest := by
  induction l with
  | nil =>
    intro acc rest _
    simp [splitLinesCore, splitLines]
  | cons c cs ih =>
    intro acc rest h
    rw [List.mem_cons, not_or] at h
    have hc : ¬ c = '\n' := fun hcc => h.1 hcc.symm
    show splitLinesCore (c :: (cs ++ '\n' :: rest)) acc = _
    rw [splitLinesCore, if_neg hc, ih (c :: acc) rest h.2]
    congr 2
    simp

theorem dropCR_eq_self_of_last (l : List Char) (c : Char) (t : List Char)
    (hrev : l.reverse = c :: t) (hws : c.isWhitespace = false) :
    dropCR l = l := by
  unfold dropCR
  rw [hrev]
  have hc : ¬ c = '\r' := by
    intro hcc
    rw [hcc] at hws
    exact absurd hws (by decide)
  simp only [if_neg hc]

theorem trimRight_eq_self_of_last (l : List Char) (c : Char) (t : List Char)
    (hrev : l.reverse = c :: t) (hws : c.isWhitespace = false) :
    trimRight l = l := by
  unfold trimRight
  rw [hrev, List.dropWhile_cons, if_neg (by simp [hws]), ← hrev,
    List.reverse_reverse]

theorem trimLeft_eq_self_of_head (c : Char) (t : List Char)
    (hws : c.isWhitespace = false) : trimLeft (c :: t) = c :: t := by
  unfold trimLeft
  rw [List.dropWhile_cons, if_neg (by simp [hws])]

theorem trimRight_fix_head (p : List Char) (hp : trimRight p = p)
    (hne : p ≠ []) :
    ∃ c t, p.reverse = c :: t ∧ c.isWhitespace = false := by
  cases hr : p.reverse with
  | nil =>
    exact absurd (by simpa using congrArg List.reverse hr) hne
  | cons c t =>
    refine ⟨c, t, rfl, ?_⟩
    by_contra hws
    have hws2 : c.isWhitespace = true := by
      revert hws
      cases c.isWhitespace <;> simp
    unfold trimRight at hp
    rw [hr, List.dropWhile_cons, if_pos (by simp [hws2])] at hp
    have hlen1 : (t.dropWhile (fun c => c.isWhitespace)).length ≤ t.length :=
      (List.dropWhile_sublist _).length_le
    have hlen2 : p.length = t.length + 1 := by
      have := congrArg List.length hr
      simpa using this
    have hlen3 := congrArg List.length hp
    simp only [List.length_reverse] at hlen3
    omega

theorem splitComma_append (ts p : List Char) (h : ',' ∉ ts) :
    splitComma (ts ++ ',' :: p) = some (ts, p) := by
  induction ts with
  | nil => simp [splitComma]
  | cons c cs ih =>
    rw [List.mem_cons, not_or] at h
    have hc : ¬ c = ',' := fun hcc => h.1 hcc.symm
    show splitComma (c :: (cs ++ ',' :: p)) = _
    rw [splitComma, if_neg hc, ih h.2]
    rfl

/-- One line of `FileHistory.Load` (part_015 lines 988-1013): trim the line,
skip it when empty, split at the first comma into timestamp and path, skip
unparsable timestamps, skip paths whose file no longer exists (`ex` is the
`os.Stat` check), and otherwise store the entry. Timestamps are decimal
whole-second counts, standing for RFC3339 at second resolution. -/
def loadLine (ex : GoPath → Bool) (h : Hist) (line : List Char) : Hist :=
  if trimSpace line = [] then h
  else
    match splitComma (trimSpace line) with
    | none => h
    | some pr =>
      match parseNat pr.1 with
      | none => h
      | some secs =>
        if ex pr.2 then setH h pr.2 ⟨secs * nsPerSec, false⟩ else h

/-- `FileHistory.Load` (part_015 lines 961-1016) applied to the bytes of a
history file. -/
def loadChars (ex : GoPath → Bool) (cs : List Char) : Hist :=
  List.foldl (loadLine ex) [] (splitLines cs)

/-- `Save`'s timestamp serialisation: `Format(time.RFC3339)` keeps whole
seconds only, modelled as the decimal count of seconds. -/
def fmtSec (u : Nat) : List Char := natToChars (u / nsPerSec)

/-- One CSV record of `FileHistory.Save`: `<timestamp>,<path>\n`. -/
def saveRecord (p : GoPath) (u : Nat) : List Char :=
  fmtSec u ++ ',' :: p ++ ['\n']

/-- `FileHistory.Save` (part_015 lines 1018-1060): write one record per
entry whose uploaded timestamp is non-zero, and nothing for the others. -/
def saveChars (h : Hist) : List Char :=
  (h.filterMap fun pe =>
    if pe.2.uploaded ≠ 0 then some (saveRecord pe.1 pe.2.uploaded)
    else none).flatten

/-- The (path, whole-second timestamp) pairs that `Save` serialises. -/
def savePairs (h : Hist) : List (GoPath × Nat) :=
  h.filterMap fun pe =>
    if pe.2.uploaded ≠ 0 then some (pe.1, pe.2.uploaded / nsPerSec) else none

/-- The (path, whole-second timestamp) pair carried by one line of a history
file, parsed the way `Load` parses it. -/
def linePair (line : List Char) : Option (GoPath × Nat) :=
  if trimSpace line = [] then none
  else
    match splitComma (trimSpace line) with
    | none => none
    | some pr => (parseNat pr.1).map (fun s => (pr.2, s))

/-- The set of (path, whole-second timestamp) pairs a history file
contains. -/
def filePairs (cs : List Char) : List (GoPath × Nat) :=
  (splitLines cs).filterMap linePair

/-- Paths whose CSV record survives the load/save round trip untouched: no
newline (the record stays a single line) and no trailing whitespace (the
loader trims each line). -/
def goodPath (p : GoPath) : Prop := ('\n' ∉ p) ∧ trimRight p = p

/-- What `Load` reconstructs from the file `Save` wrote: the non-zero
entries whose file still exists, with the timestamp truncated to seconds and
no events channel. -/
def loadedOf (ex : GoPath → Bool) (h : Hist) : Hist :=
  h.filterMap fun pe =>
    if pe.2.uploaded ≠ 0 ∧ ex pe.1 = true
    then some (pe.1, (⟨pe.2.uploaded / nsPerSec * nsPerSec, false⟩ : HEntry))
    else none

theorem fmtSec_shape (u : Nat) :
    fmtSec u ≠ [] ∧ ∀ c ∈ fmtSec u, ∃ d, d < 10 ∧ c = digitChar d :=
  natToChars_shape (u / nsPerSec)

/-- The full record line (timestamp, comma, path), before the newline. -/
def recordLine (p : GoPath) (u : Nat) : List Char := fmtSec u ++ ',' :: p

theorem recordLine_no_newline (p : GoPath) (u : Nat) (hp : goodPath p) :
    '\n' ∉ recordLine p u := by
  unfold recordLine
  rw [List.mem_append, List.mem_cons]
  push_neg
  obtain ⟨_, hdig⟩ := fmtSec_shape u
  refine ⟨?_, ?_, hp.1⟩
  · intro hmem
    rcases hdig _ hmem with ⟨d, hd, hcd⟩
    exact absurd hcd.symm (digitChar_not_newline d hd)
  · decide

theorem recordLine_rev (p : GoPath) (u : Nat) (hp : goodPath p) :
    ∃ c t, (recordLine p u).reverse = c :: t ∧ c.isWhitespace = false := by
  unfold recordLine
  cases hpc : p with
  | nil =>
    refine ⟨',', (fmtSec u).reverse, ?_, by decide⟩
    simp
  | cons q qs =>
    have hpne : p ≠ [] := by
      rw [hpc]
      simp
    rcases trimRight_fix_head p hp.2 hpne with ⟨c, t, hrev, hws⟩
    refine ⟨c, t ++ ',' :: (fmtSec u).reverse, ?_, hws⟩
    rw [← hpc]
    rw [List.reverse_append, List.reverse_cons]
    rw [hrev]
    simp

theorem recordLine_head (p : GoPath) (u : Nat) :
    ∃ c t, recordLine p u = c :: t ∧ c.isWhitespace = false := by
  obtain ⟨hne, hdig⟩ := fmtSec_shape u
  cases hfc : fmtSec u with
  | nil => exact absurd hfc hne
  | cons c cs =>
    refine ⟨c, cs ++ ',' :: p, by rw [recordLine, hfc]; rfl, ?_⟩
    have hmem : c ∈ fmtSec u := by
      rw [hfc]
      exact List.mem_cons_self _ _
    rcases hdig c hmem with ⟨d, hd, hcd⟩
    rw [hcd]
    exact digitChar_not_ws d hd

theorem trimSpace_recordLine (p : GoPath) (u : Nat) (hp : goodPath p) :
    trimSpace (recordLine p u) = recordLine p u := by
  rcases recordLine_head p u with ⟨c, t, hline, hws⟩
  rcases recordLine_rev p u hp with ⟨c2, t2, hrev, hws2⟩
  unfold trimSpace
  rw [hline, trimLeft_eq_self_of_head c t hws, ← hline]
  exact trimRight_eq_self_of_last _ c2 t2 hrev hws2

theorem splitComma_recordLine (p : GoPath) (u : Nat) :
    splitComma (recordLine p u) = some (fmtSec u, p) := by
  apply splitComma_append
  intro hmem
  obtain ⟨_, hdig⟩ := fmtSec_shape u
  rcases hdig _ hmem with ⟨d, hd, hcd⟩
  exact absurd hcd.symm (digitChar_not_comma d hd)

theorem splitLines_saveRecord (p : GoPath) (u : Nat) (rest : List Char)
    (hp : goodPath p) :
    splitLines (saveRecord p u ++ rest) = recordLine p u :: splitLines rest := by
  have heq : saveRecord p u ++ rest = recordLine p u ++ '\n' :: rest := by
    unfold saveRecord recordLine
    simp
  rw [heq]
  unfold splitLines
  rw [splitLinesCore_append_line (recordLine p u) [] rest
    (recordLine_no_newline p u hp)]
  rcases recordLine_rev p u hp with ⟨c, t, hrev, hws⟩
  rw [List.reverse_nil, List.nil_append]
  rw [dropCR_eq_self_of_last _ c t hrev hws]
  rfl

theorem loadLine_recordLine (ex : GoPath → Bool) (h : Hist) (p : GoPath)
    (u : Nat) (hp : goodPath p) :
    loadLine ex h (recordLine p u)
      = if ex p then setH h p ⟨u / nsPerSec * nsPerSec, false⟩ else h := by
  rcases recordLine_head p u with ⟨c, t, hline, _⟩
  have hne : recordLine p u ≠ [] := by
    rw [hline]
    simp
  unfold loadLine
  rw [trimSpace_recordLine p u hp, if_neg hne]
  simp only [splitComma_recordLine]
  have hparse : parseNat (fmtSec u) = some (u / nsPerSec) :=
    parseNat_natToChars (u / nsPerSec)
  simp only [hparse]

theorem linePair_recordLine (p : GoPath) (u : Nat) (hp : goodPath p) :
    linePair (recordLine p u) = some (p, u / nsPerSec) := by
  rcases recordLine_head p u with ⟨c, t, hline, _⟩
  have hne : recordLine p u ≠ [] := by
    rw [hline]
    simp
  unfold linePair
  rw [trimSpace_recordLine p u hp, if_neg hne]
  simp only [splitComma_recordLine]
  have hparse : parseNat (fmtSec u) = some (u / nsPerSec) :=
    parseNat_natToChars (u / nsPerSec)
  simp only [hparse]
  rfl

theorem saveChars_cons (pe : GoPath × HEntry) (t : Hist) :
    saveChars (pe :: t)
      = if pe.2.uploaded ≠ 0 then saveRecord pe.1 pe.2.uploaded ++ saveChars t
        else saveChars t := by
  unfold saveChars
  rw [List.filterMap_cons]
  by_cases hz : pe.2.uploaded ≠ 0
  · simp [hz]
  · simp [hz]

theorem savePairs_cons (pe : GoPath × HEntry) (t : Hist) :
    savePairs (pe :: t)
      = if pe.2.uploaded ≠ 0
        then (pe.1, pe.2.uploaded / nsPerSec) :: savePairs t
        else savePairs t := by
  unfold savePairs
  rw [List.filterMap_cons]
  by_cases hz : pe.2.uploaded ≠ 0
  · simp [hz]
  · simp [hz]

theorem loadedOf_cons (ex : GoPath → Bool) (pe : GoPath × HEntry) (t : Hist) :
    loadedOf ex (pe :: t)
      = if pe.2.uploaded ≠ 0 ∧ ex pe.1 = true
        then (pe.1, (⟨pe.2.uploaded / nsPerSec * nsPerSec, false⟩ : HEntry))
          :: loadedOf ex t
        else loadedOf ex t := by
  unfold loadedOf
  rw [List.filterMap_cons]
  by_cases hc : pe.2.uploaded ≠ 0 ∧ ex pe.1 = true
  · simp [hc]
  · simp [hc]

theorem setH_append_of_not_mem (acc : Hist) (p : GoPath) (e : HEntry)
    (h : p ∉ acc.map Prod.fst) : setH acc p e = acc ++ [(p, e)] := by
  induction acc with
  | nil => rfl
  | cons kv t ih =>
    rw [List.map_cons, List.mem_cons, not_or] at h
    have h1 : ¬ kv.1 = p := fun hc => h.1 hc.symm
    simp only [setH, if_neg h1, List.cons_append]
    rw [ih h.2]

theorem splitLines_saveChars (h : Hist)
    (hgood : ∀ pe ∈ h, pe.2.uploaded ≠ 0 → goodPath pe.1) :
    splitLines (saveChars h)
      = h.filterMap (fun pe => if pe.2.uploaded ≠ 0
          then some (recordLine pe.1 pe.2.uploaded) else none) := by
  induction h with
  | nil => rfl
  | cons pe t ih =>
    have hgt : ∀ pe2 ∈ t, pe2.2.uploaded ≠ 0 → goodPath pe2.1 :=
      fun pe2 hm hz => hgood pe2 (List.mem_cons_of_mem _ hm) hz
    rw [saveChars_cons, List.filterMap_cons]
    by_cases hz : pe.2.uploaded ≠ 0
    · rw [if_pos hz]
      have hgp := hgood pe (List.mem_cons_self _ _) hz
      rw [splitLines_saveRecord _ _ _ hgp, ih hgt]
      simp [hz]
    · rw [if_neg hz, ih hgt]
      simp [hz]

theorem load_fold_save (h : Hist) :
    ∀ (ex : GoPath → Bool) (acc : Hist),
      (h.map Prod.fst).Nodup →
      (∀ pe ∈ h, pe.2.uploaded ≠ 0 → goodPath pe.1) →
      (∀ pe ∈ h, pe.2.uploaded ≠ 0 → pe.1 ∉ acc.map Prod.fst) →
      List.foldl (loadLine ex) acc (splitLines (saveChars h))
        = acc ++ loadedOf ex h := by
  induction h with
  | nil =>
    intro ex acc _ _ _
    show List.foldl (loadLine ex) acc (splitLines (saveChars [])) = _
    simp [saveChars, splitLines, splitLinesCore, loadedOf]
  | cons pe t ih =>
    intro ex acc hnd hgood hdisj
    rw [List.map_cons, List.nodup_cons] at hnd
    have hgt : ∀ pe2 ∈ t, pe2.2.uploaded ≠ 0 → goodPath pe2.1 :=
      fun pe2 hm hz => hgood pe2 (List.mem_cons_of_mem _ hm) hz
    rw [saveChars_cons, loadedOf_cons]
    by_cases hz : pe.2.uploaded ≠ 0
    · rw [if_pos hz]
      have hgp := hgood pe (List.mem_cons_self _ _) hz
      rw [splitLines_saveRecord _ _ _ hgp, List.foldl_cons,
        loadLine_recordLine ex acc pe.1 pe.2.uploaded hgp]
      by_cases hex : ex pe.1 = true
      · rw [if_pos hex, if_pos ⟨hz, hex⟩]
        rw [setH_append_of_not_mem acc pe.1 _
          (hdisj pe (List.mem_cons_self _ _) hz)]
        rw [ih ex _ hnd.2 hgt ?hdisj2]
        · rw [List.append_assoc]
          rfl
        case hdisj2 =>
          intro pe2 hm hz2
          rw [List.map_append, List.mem_append, not_or]
          refine ⟨hdisj pe2 (List.mem_cons_of_mem _ hm) hz2, ?_⟩
          intro hmem
          rw [List.map_singleton, List.mem_singleton] at hmem
          apply hnd.1
          rw [← hmem]
          exact List.mem_map.mpr ⟨pe2, hm, rfl⟩
      · rw [if_neg hex, if_neg (by simp [hex])]
        exact ih ex acc hnd.2 hgt
          (fun pe2 hm hz2 => hdisj pe2 (List.mem_cons_of_mem _ hm) hz2)
    · rw [if_neg hz, if_neg (by simp [hz])]
      exact ih ex acc hnd.2 hgt
        (fun pe2 hm hz2 => hdisj pe2 (List.mem_cons_of_mem _ hm) hz2)

theorem loadChars_saveChars (ex : GoPath → Bool) (h : Hist)
    (hnd : (h.map Prod.fst).Nodup)
    (hgood : ∀ pe ∈ h, pe.2.uploaded ≠ 0 → goodPath pe.1) :
    loadChars ex (saveChars h) = loadedOf ex h := by
  have hfold := load_fold_save h ex [] hnd hgood
    (fun pe hm hz => by simp)
  unfold loadChars
  rw [hfold]
  rfl

theorem filePairs_saveChars (h : Hist)
    (hgood : ∀ pe ∈ h, pe.2.uploaded ≠ 0 → goodPath pe.1) :
    filePairs (saveChars h) = savePairs h := by
  unfold filePairs
  rw [splitLines_saveChars h hgood]
  induction h with
  | nil => rfl
  | cons pe t ih =>
    have hgt : ∀ pe2 ∈ t, pe2.2.uploaded ≠ 0 → goodPath pe2.1 :=
      fun pe2 hm hz => hgood pe2 (List.mem_cons_of_mem _ hm) hz
    by_cases hz : pe.2.uploaded ≠ 0
    · have hgp := hgood pe (List.mem_cons_self _ _) hz
      have h1 : List.filterMap (fun pe => if pe.2.uploaded ≠ 0
          then some (recordLine pe.1 pe.2.uploaded) else none) (pe :: t)
          = recordLine pe.1 pe.2.uploaded
            :: List.filterMap (fun pe => if pe.2.uploaded ≠ 0
              then some (recordLine pe.1 pe.2.uploaded) else none) t := by
        rw [List.filterMap_cons]
        simp [hz]
      rw [h1, List.filterMap_cons, linePair_recordLine pe.1 pe.2.uploaded hgp,
        ih hgt, savePairs_cons, if_pos hz]
    · have h1 : List.filterMap (fun pe => if pe.2.uploaded ≠ 0
          then some (recordLine pe.1 pe.2.uploaded) else none) (pe :: t)
          = List.filterMap (fun pe => if pe.2.uploaded ≠ 0
              then some (recordLine pe.1 pe.2.uploaded) else none) t := by
        rw [List.filterMap_cons]
        simp [hz]
      rw [h1, ih hgt, savePairs_cons, if_neg hz]

theorem loadedOf_good (ex : GoPath → Bool) (h : Hist)
    (hgood : ∀ pe ∈ h, pe.2.uploaded ≠ 0 → goodPath pe.1) :
    ∀ pe2 ∈ loadedOf ex h, pe2.2.uploaded ≠ 0 → goodPath pe2.1 := by
  intro pe2 hm _
  unfold loadedOf at hm
  rw [List.mem_filterMap] at hm
  rcases hm with ⟨pe, hpe, hf⟩
  by_cases hc : pe.2.uploaded ≠ 0 ∧ ex pe.1 = true
  · rw [if_pos hc] at hf
    injection hf with hf
    rw [← hf]
    exact hgood pe hpe hc.1
  · rw [if_neg hc] at hf
    exact absurd hf (by simp)

theorem savePairs_loadedOf (ex : GoPath → Bool) (h : Hist)
    (hbig : ∀ pe ∈ h, nsPerSec ≤ pe.2.uploaded ∧ ex pe.1 = true) :
    savePairs (loadedOf ex h) = savePairs h := by
  induction h with
  | nil => rfl
  | cons pe t ih =>
    obtain ⟨hb, hex⟩ := hbig pe (List.mem_cons_self _ _)
    have hpos := nsPerSec_pos
    have hz : pe.2.uploaded ≠ 0 := by omega
    have hq : pe.2.uploaded / nsPerSec ≠ 0 := by
      have h1 : 1 ≤ pe.2.uploaded / nsPerSec :=
        (Nat.one_le_div_iff hpos).mpr hb
      omega
    have hz2 : pe.2.uploaded / nsPerSec * nsPerSec ≠ 0 :=
      Nat.mul_ne_zero hq (by omega)
    rw [loadedOf_cons, if_pos ⟨hz, hex⟩, savePairs_cons, savePairs_cons,
      if_pos hz]
    simp only [hz2, ne_eq, not_false_eq_true, if_pos]
    rw [Nat.mul_div_cancel _ hpos]
    rw [ih (fun pe2 hm => hbig pe2 (List.mem_cons_of_mem _ hm))]

theorem mem_unique_of_keysNodup (h : Hist)
    (hnd : (h.map Prod.fst).Nodup) (p : GoPath) (a b : HEntry)
    (ha : (p, a) ∈ h) (hb : (p, b) ∈ h) : a = b := by
  induction h with
  | nil => exact absurd ha (List.not_mem_nil _)
  | cons kv t ih =>
    rw [List.map_cons, List.nodup_cons] at hnd
    rw [List.mem_cons] at ha hb
    rcases ha with ha | ha <;> rcases hb with hb | hb
    · have heq := ha.trans hb.symm
      exact congrArg Prod.snd heq
    · exfalso
      apply hnd.1
      rw [← ha]
      exact List.mem_map.mpr ⟨(p, b), hb, rfl⟩
    · exfalso
      apply hnd.1
      rw [← hb]
      exact List.mem_map.mpr ⟨(p, a), ha, rfl⟩
    · exact ih hnd.2 ha hb

theorem loadedOf_keys (ex : GoPath → Bool) (h : Hist) (q : GoPath)
    (hq : q ∈ (loadedOf ex h).map Prod.fst) :
    ∃ e, (q, e) ∈ h ∧ e.uploaded ≠ 0 := by
  rw [List.mem_map] at hq
  rcases hq with ⟨x, hx, hx1⟩
  unfold loadedOf at hx
  rw [List.mem_filterMap] at hx
  rcases hx with ⟨pe, hpe, hf⟩
  obtain ⟨p1, e1⟩ := pe
  by_cases hc : e1.uploaded ≠ 0 ∧ ex p1 = true
  · rw [if_pos (by simpa using hc)] at hf
    injection hf with hf
    rw [← hf] at hx1
    simp only at hx1
    rw [← hx1]
    exact ⟨e1, hpe, hc.1⟩
  · rw [if_neg (by simpa using hc)] at hf
    exact absurd hf (by simp)

/-- C8 counterexample inputs. `c8CexA`: the entry's path ends in a space, so
`Load`'s `TrimSpace` turns the saved record into a different path. `c8CexB`:
a non-zero timestamp below one second, whose RFC3339 serialisation loses the
fraction; `Load` reads it back as the zero time and the second `Save` drops
the entry. -/
def c8CexA : Hist := [("a ".toList, ⟨nsPerSec, false⟩)]

/-- Second C8 counterexample input, see `c8CexA`. -/
def c8CexB : Hist := [("b".toList, ⟨nsPerSec / 2, false⟩)]

/-- C8 counterexample: both inputs satisfy the claim's hypotheses (non-zero
uploaded timestamps, files on disk exist), yet Save-Load-Save does not
reproduce the first file's pair set: for a path with a trailing space the
pair vanishes (the trimmed path does not exist on disk), and for a
sub-second timestamp the reloaded entry is the zero time and the second
Save writes nothing. -/
theorem c8_counterexample :
    ((⟨nsPerSec, false⟩ : HEntry).uploaded ≠ 0
      ∧ ((fun p => p == "a ".toList) "a ".toList) = true
      ∧ ("a".toList, 1) ∈ filePairs (saveChars c8CexA)
      ∧ filePairs (saveChars
          (loadChars (fun p => p == "a ".toList) (saveChars c8CexA))) = [])
    ∧ ((⟨nsPerSec / 2, false⟩ : HEntry).uploaded ≠ 0
      ∧ ("b".toList, 0) ∈ filePairs (saveChars c8CexB)
      ∧ filePairs (saveChars
          (loadChars (fun _ => true) (saveChars c8CexB))) = []) := by
  refine ⟨⟨by decide, by decide, by decide, by decide⟩,
    by decide, by decide, by decide⟩

/-- C8 (amended): for every history map with pairwise-distinct paths whose
entries all have uploaded timestamps of at least one second, whose files all
exist on disk, and whose paths contain no newline and no trailing
whitespace, Save then Load then Save yields a file with the same set of
(path, second-resolution timestamp) pairs as the first Save. -/
theorem c8_save_load_save_roundtrip (h : Hist) (ex : GoPath → Bool)
    (hnd : (h.map Prod.fst).Nodup)
    (hcond : ∀ pe ∈ h, nsPerSec ≤ pe.2.uploaded ∧ ex pe.1 = true
      ∧ goodPath pe.1) :
    ∀ pr, pr ∈ filePairs (saveChars (loadChars ex (saveChars h)))
      ↔ pr ∈ filePairs (saveChars h) := by
  have hgood : ∀ pe ∈ h, pe.2.uploaded ≠ 0 → goodPath pe.1 :=
    fun pe hm _ => (hcond pe hm).2.2
  have hload := loadChars_saveChars ex h hnd hgood
  have h1 : filePairs (saveChars h) = savePairs h := filePairs_saveChars h hgood
  have h2 : filePairs (saveChars (loadedOf ex h)) = savePairs (loadedOf ex h) :=
    filePairs_saveChars _ (loadedOf_good ex h hgood)
  have h3 : savePairs (loadedOf ex h) = savePairs h :=
    savePairs_loadedOf ex h (fun pe hm => ⟨(hcond pe hm).1, (hcond pe hm).2.1⟩)
  intro pr
  rw [hload, h2, h3, h1]

theorem c8_save_load_save_roundtrip_witness :
    (((([("p".toList, (⟨nsPerSec, false⟩ : HEntry))] : Hist)).map
        Prod.fst).Nodup)
    ∧ (("p".toList, 1) ∈ filePairs (saveChars
        (loadChars (fun _ => true)
          (saveChars [("p".toList, ⟨nsPerSec, false⟩)])))
      ↔ ("p".toList, 1) ∈ filePairs
          (saveChars [("p".toList, ⟨nsPerSec, false⟩)])) :=
  ⟨by decide,
   c8_save_load_save_roundtrip [("p".toList, ⟨nsPerSec, false⟩)]
     (fun _ => true) (by decide)
     (by
       intro pe hm
       rw [List.mem_singleton] at hm
       subst hm
       exact ⟨by decide, rfl, by decide, by decide⟩)
     ("p".toList, 1)⟩

/-- C9 counterexample input: a never-uploaded entry for path `a` next to an
uploaded entry for path `a ` (trailing space). -/
def c9CexHist : Hist :=
  [("a ".toList, ⟨nsPerSec, false⟩), ("a".toList, ⟨0, false⟩)]

/-- C9 counterexample: path `a` was detected but never uploaded (its entry
is zero), yet after Save and Load the history holds an entry for `a` — the
record Save wrote for the trailing-space path `a ` is trimmed by Load into
path `a`. The reload does not forget the never-uploaded file. -/
theorem c9_counterexample :
    (("a".toList, (⟨0, false⟩ : HEntry)) ∈ c9CexHist)
    ∧ lookupH (loadChars (fun p => p == "a".toList) (saveChars c9CexHist))
        "a".toList = some ⟨nsPerSec, false⟩ := by
  refine ⟨by decide, by decide⟩

/-- C9 (amended): for every history map with pairwise-distinct paths that
contain no newline and no trailing whitespace, Save writes exactly one CSV
record per entry with a non-zero uploaded timestamp and no record for
zero entries; consequently files that were detected but never successfully
uploaded do not appear in the file, and a reload holds no entry for them. -/
theorem c9_save_skips_never_uploaded (h : Hist) (ex : GoPath → Bool)
    (hnd : (h.map Prod.fst).Nodup)
    (hgood : ∀ pe ∈ h, goodPath pe.1) :
    (splitLines (saveChars h)
      = h.filterMap (fun pe => if pe.2.uploaded ≠ 0
          then some (recordLine pe.1 pe.2.uploaded) else none))
    ∧ (∀ pe ∈ h, pe.2.uploaded = 0 →
        lookupH (loadChars ex (saveChars h)) pe.1 = none) := by
  have hgood2 : ∀ pe ∈ h, pe.2.uploaded ≠ 0 → goodPath pe.1 :=
    fun pe hm _ => hgood pe hm
  refine ⟨splitLines_saveChars h hgood2, ?_⟩
  intro pe hm hz
  rw [loadChars_saveChars ex h hnd hgood2]
  apply lookupH_eq_none_of_not_mem
  intro hmem
  rcases loadedOf_keys ex h pe.1 hmem with ⟨e2, hmem2, hz2⟩
  have heq := mem_unique_of_keysNodup h hnd pe.1 e2 pe.2 hmem2 hm
  rw [heq] at hz2
  exact hz2 hz

theorem c9_save_skips_never_uploaded_witness :
    ((([("q".toList, (⟨0, false⟩ : HEntry))] : Hist).map Prod.fst).Nodup)
    ∧ lookupH (loadChars (fun _ => true)
        (saveChars [("q".toList, ⟨0, false⟩)])) "q".toList = none :=
  ⟨by decide,
   (c9_save_skips_never_uploaded [("q".toList, ⟨0, false⟩)] (fun _ => true)
     (by decide)
     (by
       intro pe hm
       rw [List.mem_singleton] at hm
       subst hm
       exact ⟨by decide, by decide⟩)).2
     ("q".toList, ⟨0, false⟩) (List.mem_singleton.mpr rfl) rfl⟩
